import Mathlib

/-!
Verification of the `openapi-type` bidirectional mapping engine.

The repository declares an OpenAPI 3.0.x data model as a collection of
`NamedTuple` classes (`src/openapi_type/__init__.py`) and obtains the two
entry points `parse_spec` / `serialize_spec` from a reflective
decode/encode engine (`TypeGenerator & overrides ^ OpenAPI`).  The engine
itself lives outside the shown sources, so it is modelled here from the
specification: an untyped JSON-shaped `Node` tree, a `Desc` type
descriptor model, an override registry for external field names, a
recursive-descent decoder with first-match sum-variant resolution, an
encoder that omits fields equal to their declared defaults, and an
enforced recursion-depth guard on both directions.

The concrete OpenAPI schema (`specEnv`) is translated class by class from
`src/openapi_type/__init__.py`, keeping the declared field order, the
declared defaults, the declared union alternative order, and the override
table `overrides = (OperationParameter.in_ -> "in", Reference.ref ->
"$ref", PathItem.ref -> "$ref")`.
-/

namespace OpenapiType

/-- Untyped JSON/YAML-shaped document tree (spec section 3, "Untyped Node"):
null, boolean, integer, float, string, sequence, mapping. -/
inductive Node where
  | null
  | bool (b : Bool)
  | int (n : Int)
  | float (q : Rat)
  | str (s : String)
  | arr (items : List Node)
  | map (entries : List (String × Node))

/-- Typed values produced by the decoder: scalars, enum members, optional
values, sequences, sets, string-keyed mappings, product (record) values
keyed by field identifier, tagged sum variants, and pass-through values
for `Any`-typed positions. -/
inductive Value where
  | vstr (s : String)
  | vint (n : Int)
  | vfloat (q : Rat)
  | vbool (b : Bool)
  | venum (s : String)
  | vopt (v : Option Value)
  | vseq (vs : List Value)
  | vset (vs : List Value)
  | vmap (es : List (String × Value))
  | vprod (ty : String) (fs : List (String × Value))
  | vvariant (i : Nat) (v : Value)
  | vany (n : Node)

mutual

def Node.deq : (a b : Node) → Decidable (a = b)
  | .null, .null => isTrue rfl
  | .bool a, .bool b => decidable_of_iff (a = b) (by simp)
  | .int a, .int b => decidable_of_iff (a = b) (by simp)
  | .float a, .float b => decidable_of_iff (a = b) (by simp)
  | .str a, .str b => decidable_of_iff (a = b) (by simp)
  | .arr xs, .arr ys =>
    match Node.deqL xs ys with
    | isTrue h => isTrue (by rw [h])
    | isFalse h => isFalse (fun hh => h (Node.arr.inj hh))
  | .map xs, .map ys =>
    match Node.deqE xs ys with
    | isTrue h => isTrue (by rw [h])
    | isFalse h => isFalse (fun hh => h (Node.map.inj hh))
  | .null, .bool _ => isFalse nofun
  | .null, .int _ => isFalse nofun
  | .null, .float _ => isFalse nofun
  | .null, .str _ => isFalse nofun
  | .null, .arr _ => isFalse nofun
  | .null, .map _ => isFalse nofun
  | .bool _, .null => isFalse nofun
  | .bool _, .int _ => isFalse nofun
  | .bool _, .float _ => isFalse nofun
  | .bool _, .str _ => isFalse nofun
  | .bool _, .arr _ => isFalse nofun
  | .bool _, .map _ => isFalse nofun
  | .int _, .null => isFalse nofun
  | .int _, .bool _ => isFalse nofun
  | .int _, .float _ => isFalse nofun
  | .int _, .str _ => isFalse nofun
  | .int _, .arr _ => isFalse nofun
  | .int _, .map _ => isFalse nofun
  | .float _, .null => isFalse nofun
  | .float _, .bool _ => isFalse nofun
  | .float _, .int _ => isFalse nofun
  | .float _, .str _ => isFalse nofun
  | .float _, .arr _ => isFalse nofun
  | .float _, .map _ => isFalse nofun
  | .str _, .null => isFalse nofun
  | .str _, .bool _ => isFalse nofun
  | .str _, .int _ => isFalse nofun
  | .str _, .float _ => isFalse nofun
  | .str _, .arr _ => isFalse nofun
  | .str _, .map _ => isFalse nofun
  | .arr _, .null => isFalse nofun
  | .arr _, .bool _ => isFalse nofun
  | .arr _, .int _ => isFalse nofun
  | .arr _, .float _ => isFalse nofun
  | .arr _, .str _ => isFalse nofun
  | .arr _, .map _ => isFalse nofun
  | .map _, .null => isFalse nofun
  | .map _, .bool _ => isFalse nofun
  | .map _, .int _ => isFalse nofun
  | .map _, .float _ => isFalse nofun
  | .map _, .str _ => isFalse nofun
  | .map _, .arr _ => isFalse nofun
termination_by structural a => a

def Node.deqL : (xs ys : List Node) → Decidable (xs = ys)
  | [], [] => isTrue rfl
  | x :: xs, y :: ys =>
    match Node.deq x y, Node.deqL xs ys with
    | isTrue h1, isTrue h2 => isTrue (by rw [h1, h2])
    | isFalse h1, _ => isFalse (fun h => h1 (List.cons.inj h).1)
    | _, isFalse h2 => isFalse (fun h => h2 (List.cons.inj h).2)
  | [], _ :: _ => isFalse nofun
  | _ :: _, [] => isFalse nofun
termination_by structural xs => xs

def Node.deqE : (xs ys : List (String × Node)) → Decidable (xs = ys)
  | [], [] => isTrue rfl
  | (k, x) :: xs, (k', y) :: ys =>
    match decEq k k', Node.deq x y, Node.deqE xs ys with
    | isTrue hk, isTrue h1, isTrue h2 => isTrue (by rw [hk, h1, h2])
    | isFalse hk, _, _ => isFalse (fun h => hk (congrArg Prod.fst (List.cons.inj h).1))
    | _, isFalse h1, _ => isFalse (fun h => h1 (congrArg Prod.snd (List.cons.inj h).1))
    | _, _, isFalse h2 => isFalse (fun h => h2 (List.cons.inj h).2)
  | [], _ :: _ => isFalse nofun
  | _ :: _, [] => isFalse nofun
termination_by structural xs => xs

end

instance : DecidableEq Node := Node.deq

mutual

def Value.deq : (a b : Value) → Decidable (a = b)
  | .vstr a, .vstr b => decidable_of_iff (a = b) (by simp)
  | .vint a, .vint b => decidable_of_iff (a = b) (by simp)
  | .vfloat a, .vfloat b => decidable_of_iff (a = b) (by simp)
  | .vbool a, .vbool b => decidable_of_iff (a = b) (by simp)
  | .venum a, .venum b => decidable_of_iff (a = b) (by simp)
  | .vany a, .vany b => decidable_of_iff (a = b) (by simp)
  | .vopt a, .vopt b =>
    match Value.deqO a b with
    | isTrue h => isTrue (by rw [h])
    | isFalse h => isFalse (fun hh => h (Value.vopt.inj hh))
  | .vseq xs, .vseq ys =>
    match Value.deqL xs ys with
    | isTrue h => isTrue (by rw [h])
    | isFalse h => isFalse (fun hh => h (Value.vseq.inj hh))
  | .vset xs, .vset ys =>
    match Value.deqL xs ys with
    | isTrue h => isTrue (by rw [h])
    | isFalse h => isFalse (fun hh => h (Value.vset.inj hh))
  | .vmap xs, .vmap ys =>
    match Value.deqE xs ys with
    | isTrue h => isTrue (by rw [h])
    | isFalse h => isFalse (fun hh => h (Value.vmap.inj hh))
  | .vprod t xs, .vprod t' ys =>
    match decEq t t', Value.deqE xs ys with
    | isTrue ht, isTrue h => isTrue (by rw [ht, h])
    | isFalse ht, _ => isFalse (fun hh => ht (Value.vprod.inj hh).1)
    | _, isFalse h => isFalse (fun hh => h (Value.vprod.inj hh).2)
  | .vvariant i v, .vvariant j w =>
    match decEq i j, Value.deq v w with
    | isTrue hi, isTrue h => isTrue (by rw [hi, h])
    | isFalse hi, _ => isFalse (fun hh => hi (Value.vvariant.inj hh).1)
    | _, isFalse h => isFalse (fun hh => h (Value.vvariant.inj hh).2)
  | .vstr _, .vint _ => isFalse nofun
  | .vstr _, .vfloat _ => isFalse nofun
  | .vstr _, .vbool _ => isFalse nofun
  | .vstr _, .venum _ => isFalse nofun
  | .vstr _, .vopt _ => isFalse nofun
  | .vstr _, .vseq _ => isFalse nofun
  | .vstr _, .vset _ => isFalse nofun
  | .vstr _, .vmap _ => isFalse nofun
  | .vstr _, .vprod _ _ => isFalse nofun
  | .vstr _, .vvariant _ _ => isFalse nofun
  | .vstr _, .vany _ => isFalse nofun
  | .vint _, .vstr _ => isFalse nofun
  | .vint _, .vfloat _ => isFalse nofun
  | .vint _, .vbool _ => isFalse nofun
  | .vint _, .venum _ => isFalse nofun
  | .vint _, .vopt _ => isFalse nofun
  | .vint _, .vseq _ => isFalse nofun
  | .vint _, .vset _ => isFalse nofun
  | .vint _, .vmap _ => isFalse nofun
  | .vint _, .vprod _ _ => isFalse nofun
  | .vint _, .vvariant _ _ => isFalse nofun
  | .vint _, .vany _ => isFalse nofun
  | .vfloat _, .vstr _ => isFalse nofun
  | .vfloat _, .vint _ => isFalse nofun
  | .vfloat _, .vbool _ => isFalse nofun
  | .vfloat _, .venum _ => isFalse nofun
  | .vfloat _, .vopt _ => isFalse nofun
  | .vfloat _, .vseq _ => isFalse nofun
  | .vfloat _, .vset _ => isFalse nofun
  | .vfloat _, .vmap _ => isFalse nofun
  | .vfloat _, .vprod _ _ => isFalse nofun
  | .vfloat _, .vvariant _ _ => isFalse nofun
  | .vfloat _, .vany _ => isFalse nofun
  | .vbool _, .vstr _ => isFalse nofun
  | .vbool _, .vint _ => isFalse nofun
  | .vbool _, .vfloat _ => isFalse nofun
  | .vbool _, .venum _ => isFalse nofun
  | .vbool _, .vopt _ => isFalse nofun
  | .vbool _, .vseq _ => isFalse nofun
  | .vbool _, .vset _ => isFalse nofun
  | .vbool _, .vmap _ => isFalse nofun
  | .vbool _, .vprod _ _ => isFalse nofun
  | .vbool _, .vvariant _ _ => isFalse nofun
  | .vbool _, .vany _ => isFalse nofun
  | .venum _, .vstr _ => isFalse nofun
  | .venum _, .vint _ => isFalse nofun
  | .venum _, .vfloat _ => isFalse nofun
  | .venum _, .vbool _ => isFalse nofun
  | .venum _, .vopt _ => isFalse nofun
  | .venum _, .vseq _ => isFalse nofun
  | .venum _, .vset _ => isFalse nofun
  | .venum _, .vmap _ => isFalse nofun
  | .venum _, .vprod _ _ => isFalse nofun
  | .venum _, .vvariant _ _ => isFalse nofun
  | .venum _, .vany _ => isFalse nofun
  | .vopt _, .vstr _ => isFalse nofun
  | .vopt _, .vint _ => isFalse nofun
  | .vopt _, .vfloat _ => isFalse nofun
  | .vopt _, .vbool _ => isFalse nofun
  | .vopt _, .venum _ => isFalse nofun
  | .vopt _, .vseq _ => isFalse nofun
  | .vopt _, .vset _ => isFalse nofun
  | .vopt _, .vmap _ => isFalse nofun
  | .vopt _, .vprod _ _ => isFalse nofun
  | .vopt _, .vvariant _ _ => isFalse nofun
  | .vopt _, .vany _ => isFalse nofun
  | .vseq _, .vstr _ => isFalse nofun
  | .vseq _, .vint _ => isFalse nofun
  | .vseq _, .vfloat _ => isFalse nofun
  | .vseq _, .vbool _ => isFalse nofun
  | .vseq _, .venum _ => isFalse nofun
  | .vseq _, .vopt _ => isFalse nofun
  | .vseq _, .vset _ => isFalse nofun
  | .vseq _, .vmap _ => isFalse nofun
  | .vseq _, .vprod _ _ => isFalse nofun
  | .vseq _, .vvariant _ _ => isFalse nofun
  | .vseq _, .vany _ => isFalse nofun
  | .vset _, .vstr _ => isFalse nofun
  | .vset _, .vint _ => isFalse nofun
  | .vset _, .vfloat _ => isFalse nofun
  | .vset _, .vbool _ => isFalse nofun
  | .vset _, .venum _ => isFalse nofun
  | .vset _, .vopt _ => isFalse nofun
  | .vset _, .vseq _ => isFalse nofun
  | .vset _, .vmap _ => isFalse nofun
  | .vset _, .vprod _ _ => isFalse nofun
  | .vset _, .vvariant _ _ => isFalse nofun
  | .vset _, .vany _ => isFalse nofun
  | .vmap _, .vstr _ => isFalse nofun
  | .vmap _, .vint _ => isFalse nofun
  | .vmap _, .vfloat _ => isFalse nofun
  | .vmap _, .vbool _ => isFalse nofun
  | .vmap _, .venum _ => isFalse nofun
  | .vmap _, .vopt _ => isFalse nofun
  | .vmap _, .vseq _ => isFalse nofun
  | .vmap _, .vset _ => isFalse nofun
  | .vmap _, .vprod _ _ => isFalse nofun
  | .vmap _, .vvariant _ _ => isFalse nofun
  | .vmap _, .vany _ => isFalse nofun
  | .vprod _ _, .vstr _ => isFalse nofun
  | .vprod _ _, .vint _ => isFalse nofun
  | .vprod _ _, .vfloat _ => isFalse nofun
  | .vprod _ _, .vbool _ => isFalse nofun
  | .vprod _ _, .venum _ => isFalse nofun
  | .vprod _ _, .vopt _ => isFalse nofun
  | .vprod _ _, .vseq _ => isFalse nofun
  | .vprod _ _, .vset _ => isFalse nofun
  | .vprod _ _, .vmap _ => isFalse nofun
  | .vprod _ _, .vvariant _ _ => isFalse nofun
  | .vprod _ _, .vany _ => isFalse nofun
  | .vvariant _ _, .vstr _ => isFalse nofun
  | .vvariant _ _, .vint _ => isFalse nofun
  | .vvariant _ _, .vfloat _ => isFalse nofun
  | .vvariant _ _, .vbool _ => isFalse nofun
  | .vvariant _ _, .venum _ => isFalse nofun
  | .vvariant _ _, .vopt _ => isFalse nofun
  | .vvariant _ _, .vseq _ => isFalse nofun
  | .vvariant _ _, .vset _ => isFalse nofun
  | .vvariant _ _, .vmap _ => isFalse nofun
  | .vvariant _ _, .vprod _ _ => isFalse nofun
  | .vvariant _ _, .vany _ => isFalse nofun
  | .vany _, .vstr _ => isFalse nofun
  | .vany _, .vint _ => isFalse nofun
  | .vany _, .vfloat _ => isFalse nofun
  | .vany _, .vbool _ => isFalse nofun
  | .vany _, .venum _ => isFalse nofun
  | .vany _, .vopt _ => isFalse nofun
  | .vany _, .vseq _ => isFalse nofun
  | .vany _, .vset _ => isFalse nofun
  | .vany _, .vmap _ => isFalse nofun
  | .vany _, .vprod _ _ => isFalse nofun
  | .vany _, .vvariant _ _ => isFalse nofun
termination_by structural a => a

def Value.deqO : (a b : Option Value) → Decidable (a = b)
  | none, none => isTrue rfl
  | some x, some y =>
    match Value.deq x y with
    | isTrue h => isTrue (by rw [h])
    | isFalse h => isFalse (fun hh => h (Option.some.inj hh))
  | none, some _ => isFalse nofun
  | some _, none => isFalse nofun
termination_by structural a => a

def Value.deqL : (xs ys : List Value) → Decidable (xs = ys)
  | [], [] => isTrue rfl
  | x :: xs, y :: ys =>
    match Value.deq x y, Value.deqL xs ys with
    | isTrue h1, isTrue h2 => isTrue (by rw [h1, h2])
    | isFalse h1, _ => isFalse (fun h => h1 (List.cons.inj h).1)
    | _, isFalse h2 => isFalse (fun h => h2 (List.cons.inj h).2)
  | [], _ :: _ => isFalse nofun
  | _ :: _, [] => isFalse nofun
termination_by structural xs => xs

def Value.deqE : (xs ys : List (String × Value)) → Decidable (xs = ys)
  | [], [] => isTrue rfl
  | (k, x) :: xs, (k', y) :: ys =>
    match decEq k k', Value.deq x y, Value.deqE xs ys with
    | isTrue hk, isTrue h1, isTrue h2 => isTrue (by rw [hk, h1, h2])
    | isFalse hk, _, _ => isFalse (fun h => hk (congrArg Prod.fst (List.cons.inj h).1))
    | _, isFalse h1, _ => isFalse (fun h => h1 (congrArg Prod.snd (List.cons.inj h).1))
    | _, _, isFalse h2 => isFalse (fun h => h2 (List.cons.inj h).2)
  | [], _ :: _ => isFalse nofun
  | _ :: _, [] => isFalse nofun
termination_by structural xs => xs

end

instance : DecidableEq Value := Value.deq

/-- Primitive scalar kinds (spec section 3, "Scalar(kind)"). -/
inductive Kind where
  | kstr | kint | kfloat | kbool

/-- Type descriptors (spec section 3): scalars, string literals (the
`Literal['...']` discriminator fields of the source classes), enumerations
(`Enum` classes), optional wrappers, sequences, sets, fixed-value-type
mappings, products (ordered named fields), sums (ordered alternatives),
named references into a descriptor environment (the memoized registry that
breaks self-referential cycles such as `SchemaType`), and the pass-through
shape for `Any`-typed positions.  A product field is
`(identifier, external name, optional default, descriptor)`. -/
inductive Desc where
  | scalar (k : Kind)
  | lit (s : String)
  | enumOf (vals : List String)
  | opt (d : Desc)
  | seqOf (d : Desc)
  | setOf (d : Desc)
  | dict (d : Desc)
  | prodOf (ty : String) (fields : List (String × String × Option Value × Desc))
  | sumOf (alts : List Desc)
  | named (n : String)
  | anyD

/-- A product field descriptor: identifier, external key name, optional
declared default, field type descriptor. -/
abbrev FieldT := String × String × Option Value × Desc

def fid (f : FieldT) : String := f.1

def fext (f : FieldT) : String := f.2.1

def fdef (f : FieldT) : Option Value := f.2.2.1

def fdesc (f : FieldT) : Desc := f.2.2.2

/-- Descriptor environment: named descriptors, one per source class. -/
abbrev Env := List (String × Desc)

/-- Association-list lookup used for mapping nodes, environments and the
override registry. -/
def lookupA {α : Type} : List (String × α) → String → Option α
  | [], _ => none
  | (k, v) :: rest, key => if key = k then some v else lookupA rest key

/-- Structured decode errors (spec section 7). -/
inductive DErr where
  | typeMismatch (path expected got : String)
  | missingField (path field : String)
  | noMatchingVariant (path : String) (attempts : List DErr)
  | recursionLimitExceeded (path : String) (limit : Nat)
  | invalidDescriptor (path name : String)
  | encodeFailure (path : String)

/-- The enforced recursion-depth limit (spec section 4.4: an enforced depth
counter so adversarially deep documents fail with
`RecursionLimitExceeded` instead of crashing; the spec fixes no numeric
value, only that moderately nested documents such as 50-level
array-of-arrays succeed while adversarially deep ones fail). -/
def recursionLimit : Nat := 256

def pathExt (path key : String) : String :=
  if path = "" then key else path ++ "." ++ key

def scalarKindName : Kind → String
  | .kstr => "string"
  | .kint => "integer"
  | .kfloat => "number"
  | .kbool => "boolean"

def nodeKindName : Node → String
  | .null => "null"
  | .bool _ => "boolean"
  | .int _ => "integer"
  | .float _ => "number"
  | .str _ => "string"
  | .arr _ => "array"
  | .map _ => "object"

/-- Does a node match a scalar kind?  Integer nodes are accepted by the
float kind (widening); the converse is not accepted (spec section 4.3). -/
def scalarMatches : Kind → Node → Bool
  | .kstr, .str _ => true
  | .kint, .int _ => true
  | .kfloat, .float _ => true
  | .kfloat, .int _ => true
  | .kbool, .bool _ => true
  | _, _ => false

/-- Decode a node against a scalar kind (spec section 4.3, "Scalar"). -/
def scalarDecode (k : Kind) (node : Node) (path : String) : Except DErr Value :=
  match k, node with
  | .kstr, .str s => .ok (.vstr s)
  | .kint, .int n => .ok (.vint n)
  | .kfloat, .float q => .ok (.vfloat q)
  | .kfloat, .int n => .ok (.vfloat (n : Rat))
  | .kbool, .bool b => .ok (.vbool b)
  | k, node => .error (.typeMismatch path (scalarKindName k) (nodeKindName node))

def isRLEerr : DErr → Bool
  | .recursionLimitExceeded _ _ => true
  | _ => false

def isOptD : Desc → Bool
  | .opt _ => true
  | _ => false

/-- A field is required iff it has no declared default and its type is not
Optional (spec section 3, "FieldDescriptor"). -/
def isRequiredF (f : FieldT) : Bool := (fdef f).isNone && !isOptD (fdesc f)

/-- Structural-completeness pre-check of a mapping node against a
product's fields, in declared field order (spec section 2, "first
structurally-complete match wins"): a required field whose external key
is absent yields `MissingFieldError`; a literal discriminator field whose
key is present with the wrong string yields `TypeMismatchError`.  The
first problem wins.  No recursion into nested values happens here. -/
def fieldShapeErr (f : FieldT) (es : List (String × Node)) (path : String) : Option DErr :=
  match lookupA es (fext f) with
  | none => if isRequiredF f then some (.missingField path (fext f)) else none
  | some n =>
    match fdesc f with
    | .lit s =>
      match n with
      | .str s' =>
        if s' = s then none else some (.typeMismatch (pathExt path (fext f)) s s')
      | _ => some (.typeMismatch (pathExt path (fext f)) s (nodeKindName n))
    | _ => none

def checkShape : List FieldT → List (String × Node) → String → Option DErr
  | [], _, _ => none
  | f :: rest, es, path =>
    match fieldShapeErr f es path with
    | some e => some e
    | none => checkShape rest es path

def decList (dec : Node → String → Except DErr Value) :
    List Node → String → Nat → Except DErr (List Value)
  | [], _, _ => .ok []
  | n :: rest, path, i => do
    let v ← dec n (pathExt path (toString i))
    let vs ← decList dec rest path (i + 1)
    .ok (v :: vs)

def decEntries (dec : Node → String → Except DErr Value) :
    List (String × Node) → String → Except DErr (List (String × Value))
  | [], _ => .ok []
  | (k, n) :: rest, path => do
    let v ← dec n (pathExt path k)
    let vs ← decEntries dec rest path
    .ok ((k, v) :: vs)

/-- Decode the fields of a product from a mapping node, in declared field
order: a present key decodes recursively, an absent key falls back to the
declared default, an absent optional field without a default becomes
absent (spec section 4.3, "Product" and "Optional"). -/
def decFields (dec : Desc → Node → String → Except DErr Value) :
    List FieldT → List (String × Node) → String → Except DErr (List (String × Value))
  | [], _, _ => .ok []
  | f :: rest, es, path => do
    let v ←
      match lookupA es (fext f) with
      | some n => dec (fdesc f) n (pathExt path (fext f))
      | none =>
        match fdef f with
        | some dv => Except.ok dv
        | none =>
          if isOptD (fdesc f) then Except.ok (.vopt none)
          else Except.error (.missingField path (fext f))
    let tl ← decFields dec rest es path
    .ok ((fid f, v) :: tl)

/-- Try sum alternatives in declared order; the first that decodes without
error wins (spec section 4.3, "Sum").  A depth-guard error aborts variant
resolution immediately — the document is too deep, not mismatched, and a
later, laxer alternative must not swallow it (spec section 4.4: deep
documents fail cleanly with `RecursionLimitExceeded`).  If no alternative
succeeds, the attempt errors are aggregated into
`NoMatchingVariantError`. -/
def decAlts (dec : Desc → Except DErr Value) :
    List Desc → Nat → String → List DErr → Except DErr Value
  | [], _, path, errs => .error (.noMatchingVariant path errs.reverse)
  | a :: rest, i, path, errs =>
    match dec a with
    | .ok v => .ok (.vvariant i v)
    | .error e =>
      if isRLEerr e then .error e
      else decAlts dec rest (i + 1) path (e :: errs)

/-- The decoder (spec section 4.3): untyped node + descriptor + path to a
typed value or a structured error, under the enforced depth counter. -/
def decode : Nat → Env → Desc → Node → String → Except DErr Value
  | 0, _, _, _, path => .error (.recursionLimitExceeded path recursionLimit)
  | f + 1, env, d, node, path =>
    match d with
    | .scalar k => scalarDecode k node path
    | .lit s =>
      match node with
      | .str s' => if s' = s then .ok (.vstr s) else .error (.typeMismatch path s s')
      | _ => .error (.typeMismatch path s (nodeKindName node))
    | .enumOf vals =>
      match node with
      | .str s =>
        if vals.contains s then .ok (.venum s)
        else .error (.typeMismatch path (String.intercalate "|" vals) s)
      | _ => .error (.typeMismatch path (String.intercalate "|" vals) (nodeKindName node))
    | .opt d' =>
      match node with
      | .null => .ok (.vopt none)
      | _ => (decode f env d' node path).map (fun v => .vopt (some v))
    | .seqOf d' =>
      match node with
      | .arr ns => (decList (fun n p => decode f env d' n p) ns path 0).map .vseq
      | _ => .error (.typeMismatch path "array" (nodeKindName node))
    | .setOf d' =>
      match node with
      | .arr ns => (decList (fun n p => decode f env d' n p) ns path 0).map (fun vs => .vset vs.dedup)
      | _ => .error (.typeMismatch path "array" (nodeKindName node))
    | .dict d' =>
      match node with
      | .map es => (decEntries (fun n p => decode f env d' n p) es path).map .vmap
      | _ => .error (.typeMismatch path "object" (nodeKindName node))
    | .prodOf ty flds =>
      match node with
      | .map es =>
        match checkShape flds es path with
        | some e => .error e
        | none => (decFields (fun d'' n p => decode f env d'' n p) flds es path).map (.vprod ty)
      | _ => .error (.typeMismatch path "object" (nodeKindName node))
    | .sumOf alts => decAlts (fun d'' => decode f env d'' node path) alts 0 path []
    | .named n =>
      match lookupA env n with
      | some d' => decode f env d' node path
      | none => .error (.invalidDescriptor path n)
    | .anyD => .ok (.vany node)

def encList (enc : Value → Except DErr Node) : List Value → Except DErr (List Node)
  | [] => .ok []
  | v :: rest => do
    let n ← enc v
    let ns ← encList enc rest
    .ok (n :: ns)

def encEntries (enc : Value → Except DErr Node) :
    List (String × Value) → Except DErr (List (String × Node))
  | [] => .ok []
  | (k, v) :: rest => do
    let n ← enc v
    let ns ← encEntries enc rest
    .ok ((k, n) :: ns)

/-- Encode the fields of a product value, in declared field order, under
their external keys.  A field whose value equals its declared default is
omitted, as is an absent optional field without a default, producing the
canonical compact output (spec section 4.4, "Product" and "Optional"). -/
def skipB (f : FieldT) (v : Value) : Bool :=
  match fdef f with
  | some dv => v = dv
  | none => isOptD (fdesc f) && v = Value.vopt none

def encFields (enc : Desc → Value → Except DErr Node) :
    List FieldT → List (String × Value) → String → Except DErr (List (String × Node))
  | [], [], _ => .ok []
  | f :: rest, (ident, v) :: fvs, path =>
    if ident = fid f then
      if skipB f v then
        encFields enc rest fvs path
      else do
        let n ← enc (fdesc f) v
        let tl ← encFields enc rest fvs path
        .ok ((fext f, n) :: tl)
    else .error (.encodeFailure path)
  | _, _, path => .error (.encodeFailure path)

/-- The encoder (spec section 4.4): typed value + descriptor to an untyped
node.  Sum values dispatch on their variant tag; optional absence encodes
to omission inside a product and to an explicit null elsewhere; the same
depth counter guards unbounded recursion. -/
def encode : Nat → Env → Desc → Value → String → Except DErr Node
  | 0, _, _, _, path => .error (.recursionLimitExceeded path recursionLimit)
  | f + 1, env, d, v, path =>
    match d, v with
    | .scalar .kstr, .vstr s => .ok (.str s)
    | .scalar .kint, .vint n => .ok (.int n)
    | .scalar .kfloat, .vfloat q => .ok (.float q)
    | .scalar .kbool, .vbool b => .ok (.bool b)
    | .lit s, .vstr s' => if s' = s then .ok (.str s) else .error (.encodeFailure path)
    | .enumOf vals, .venum s =>
      if vals.contains s then .ok (.str s) else .error (.encodeFailure path)
    | .opt _, .vopt none => .ok .null
    | .opt d', .vopt (some w) => encode f env d' w path
    | .seqOf d', .vseq vs => (encList (fun w => encode f env d' w path) vs).map .arr
    | .setOf d', .vset vs => (encList (fun w => encode f env d' w path) vs).map .arr
    | .dict d', .vmap es => (encEntries (fun w => encode f env d' w path) es).map .map
    | .prodOf ty flds, .vprod ty' fvs =>
      if ty' = ty then (encFields (fun d'' w => encode f env d'' w path) flds fvs path).map .map
      else .error (.encodeFailure path)
    | .sumOf alts, .vvariant i w =>
      match alts[i]? with
      | some a => encode f env a w path
      | none => .error (.encodeFailure path)
    | .named n, w =>
      match lookupA env n with
      | some d' => encode f env d' w path
      | none => .error (.invalidDescriptor path n)
    | .anyD, .vany n => .ok n
    | _, _ => .error (.encodeFailure path)

/-- The override registry from `src/openapi_type/__init__.py` lines
323-327: `OperationParameter.in_ -> "in"`, `Reference.ref -> "$ref"`,
`PathItem.ref -> "$ref"`, keyed by (owning type, field identifier). -/
def overrides : List ((String × String) × String) :=
  [(("OperationParameter", "in_"), "in"),
   (("Reference", "ref"), "$ref"),
   (("PathItem", "ref"), "$ref")]

/-- Modelled from the spec: the engine's snake_case-to-camelCase external
naming convention for fields without an override (the source engine is not
under `src/`; spec section 8 fixes the behaviour, e.g. the
`additional_properties` field is keyed `"additionalProperties"` in
documents).  A trailing underscore is dropped. -/
def camelizeChars : List Char → List Char
  | [] => []
  | '_' :: [] => []
  | '_' :: c :: rest => c.toUpper :: camelizeChars rest
  | c :: rest => c :: camelizeChars rest

def camelize (s : String) : String := String.mk (camelizeChars s.data)

/-- Override Registry lookup (spec section 4.2): the external key of a
field is its override when one is registered for the (owning type, field)
pair, and its conventional document name otherwise. -/
def resolveKey (ty fldId : String) : String :=
  match overrides.find? (fun e => e.1.1 = ty && e.1.2 = fldId) with
  | some e => e.2
  | none => camelize fldId

def fF (ident ext : String) (dflt : Option Value) (d : Desc) : FieldT :=
  (ident, ext, dflt, d)

/-- Default value of the `components` field of `OpenAPI`:
`Components(schemas=pmap(), links=pmap())` with the remaining declared
defaults filled in (source lines 200-207 and 316). -/
def componentsDefault : Value :=
  .vprod "Components"
    [("schemas", .vmap []), ("links", .vmap []), ("parameters", .vmap []),
     ("responses", .vmap []), ("headers", .vmap []), ("request_bodies", .vmap []),
     ("security_schemes", .vmap [])]

/-- The descriptor environment for the whole source data model, one entry
per class of `src/openapi_type/__init__.py`, in source order.  Field
order, defaults and union alternative order follow the source text.
External names are the override-registry results (`resolveKey`), written
out literally; `extNamesConsistent` checks the two agree.  `EmptyValue`
is imported by the source from `custom_types` (not under `src/`) and is
modelled from the spec as a product with no fields.  `Operation.security`
is declared `None | Any = None`, which collapses to `Any` with default
`None`, hence the pass-through descriptor with default `vany null`. -/
def specEnv : Env :=
  [("IntegerValue", .prodOf "IntegerValue"
     [fF "type" "type" none (.lit "integer"),
      fF "format" "format" (some (.vstr "")) (.scalar .kstr),
      fF "example" "example" (some (.vopt none)) (.opt (.scalar .kint)),
      fF "default" "default" (some (.vopt none)) (.opt (.scalar .kint)),
      fF "minimum" "minimum" (some (.vopt none)) (.opt (.scalar .kint)),
      fF "maximum" "maximum" (some (.vopt none)) (.opt (.scalar .kint)),
      fF "nullable" "nullable" (some (.vopt none)) (.opt (.scalar .kbool))]),
   ("FloatValue", .prodOf "FloatValue"
     [fF "type" "type" none (.lit "number"),
      fF "format" "format" (some (.vstr "")) (.scalar .kstr),
      fF "example" "example" (some (.vopt none)) (.opt (.scalar .kfloat)),
      fF "default" "default" (some (.vopt none)) (.opt (.scalar .kfloat)),
      fF "nullable" "nullable" (some (.vopt none)) (.opt (.scalar .kbool))]),
   ("StringValue", .prodOf "StringValue"
     [fF "type" "type" none (.lit "string"),
      fF "format" "format" (some (.vstr "")) (.scalar .kstr),
      fF "description" "description" (some (.vstr "")) (.scalar .kstr),
      fF "enum" "enum" (some (.vseq [])) (.seqOf (.scalar .kstr)),
      fF "default" "default" (some (.vopt none)) (.opt (.scalar .kstr)),
      fF "pattern" "pattern" (some (.vopt none)) (.opt (.scalar .kstr)),
      fF "example" "example" (some (.vstr "")) (.scalar .kstr),
      fF "nullable" "nullable" (some (.vopt none)) (.opt (.scalar .kbool))]),
   ("BooleanValue", .prodOf "BooleanValue"
     [fF "type" "type" none (.lit "boolean"),
      fF "default" "default" (some (.vopt none)) (.opt (.scalar .kbool)),
      fF "nullable" "nullable" (some (.vopt none)) (.opt (.scalar .kbool))]),
   ("Reference", .prodOf "Reference"
     [fF "ref" "$ref" none (.scalar .kstr)]),
   ("ObjectWithAdditionalProperties", .prodOf "ObjectWithAdditionalProperties"
     [fF "type" "type" none (.lit "object"),
      fF "additional_properties" "additionalProperties" (some (.vopt none))
        (.opt (.sumOf [.scalar .kbool, .named "SchemaType"])),
      fF "nullable" "nullable" (some (.vopt none)) (.opt (.scalar .kbool))]),
   ("ArrayValue", .prodOf "ArrayValue"
     [fF "type" "type" none (.lit "array"),
      fF "items" "items" none (.named "SchemaType"),
      fF "description" "description" (some (.vstr "")) (.scalar .kstr),
      fF "nullable" "nullable" (some (.vopt none)) (.opt (.scalar .kbool))]),
   ("ObjectValue", .prodOf "ObjectValue"
     [fF "type" "type" none (.lit "object"),
      fF "properties" "properties" none (.dict (.named "SchemaType")),
      fF "required" "required" (some (.vset [])) (.setOf (.scalar .kstr)),
      fF "description" "description" (some (.vstr "")) (.scalar .kstr),
      fF "xml" "xml" (some (.vmap [])) (.dict .anyD),
      fF "nullable" "nullable" (some (.vopt none)) (.opt (.scalar .kbool))]),
   ("InlinedObjectValue", .prodOf "InlinedObjectValue"
     [fF "properties" "properties" none (.dict (.named "SchemaType")),
      fF "required" "required" none (.setOf (.scalar .kstr)),
      fF "description" "description" (some (.vstr "")) (.scalar .kstr),
      fF "nullable" "nullable" (some (.vopt none)) (.opt (.scalar .kbool))]),
   ("ResponseRef", .prodOf "ResponseRef"
     [fF "operation_id" "operationId" none (.scalar .kstr),
      fF "parameters" "parameters" none (.dict (.scalar .kstr)),
      fF "nullable" "nullable" (some (.vopt none)) (.opt (.scalar .kbool))]),
   ("ObjectRef", .prodOf "ObjectRef"
     [fF "ref" "ref" none (.scalar .kstr)]),
   ("ProductSchemaType", .prodOf "ProductSchemaType"
     [fF "all_of" "allOf" none (.seqOf (.named "SchemaType")),
      fF "nullable" "nullable" (some (.vopt none)) (.opt (.scalar .kbool))]),
   ("UnionSchemaTypeAny", .prodOf "UnionSchemaTypeAny"
     [fF "any_of" "anyOf" none (.seqOf (.named "SchemaType")),
      fF "nullable" "nullable" (some (.vopt none)) (.opt (.scalar .kbool))]),
   ("UnionSchemaTypeOne", .prodOf "UnionSchemaTypeOne"
     [fF "one_of" "oneOf" none (.seqOf (.named "SchemaType")),
      fF "nullable" "nullable" (some (.vopt none)) (.opt (.scalar .kbool))]),
   ("EmptyValue", .prodOf "EmptyValue" []),
   ("SchemaType", .sumOf
     [.named "StringValue", .named "IntegerValue", .named "FloatValue",
      .named "BooleanValue", .named "ObjectValue", .named "ArrayValue",
      .named "ResponseRef", .named "Reference", .named "ProductSchemaType",
      .named "UnionSchemaTypeAny", .named "UnionSchemaTypeOne",
      .named "ObjectWithAdditionalProperties", .named "InlinedObjectValue",
      .named "EmptyValue"]),
   ("ParamLocation", .enumOf ["query", "header", "path", "cookie"]),
   ("ParamStyle", .enumOf
     ["form", "simple", "matrix", "label", "spaceDelimited", "pipeDelimited",
      "deepObject"]),
   ("OperationParameter", .prodOf "OperationParameter"
     [fF "name" "name" none (.scalar .kstr),
      fF "in_" "in" none (.named "ParamLocation"),
      fF "schema" "schema" none (.named "SchemaType"),
      fF "required" "required" (some (.vbool false)) (.scalar .kbool),
      fF "description" "description" (some (.vstr "")) (.scalar .kstr),
      fF "style" "style" (some (.vopt none)) (.opt (.named "ParamStyle")),
      fF "explode" "explode" (some (.vopt none)) (.opt (.scalar .kbool))]),
   ("Header", .prodOf "Header"
     [fF "schema" "schema" none (.named "SchemaType"),
      fF "description" "description" (some (.vstr "")) (.scalar .kstr)]),
   ("MediaType", .prodOf "MediaType"
     [fF "schema" "schema" (some (.vopt none)) (.opt (.named "SchemaType")),
      fF "example" "example" (some (.vopt none)) (.opt (.sumOf [.scalar .kstr, .dict .anyD])),
      fF "examples" "examples" (some (.vmap [])) (.dict .anyD),
      fF "encoding" "encoding" (some (.vmap [])) (.dict .anyD)]),
   ("Response", .prodOf "Response"
     [fF "content" "content" (some (.vmap [])) (.dict (.named "MediaType")),
      fF "headers" "headers" (some (.vmap [])) (.dict (.sumOf [.named "Header", .named "Reference"])),
      fF "description" "description" (some (.vstr "")) (.scalar .kstr)]),
   ("Components", .prodOf "Components"
     [fF "schemas" "schemas" none (.dict (.named "SchemaType")),
      fF "links" "links" (some (.vmap [])) (.dict (.named "SchemaType")),
      fF "parameters" "parameters" (some (.vmap [])) (.dict (.named "OperationParameter")),
      fF "responses" "responses" (some (.vmap [])) (.dict (.named "Response")),
      fF "headers" "headers" (some (.vmap [])) (.dict (.named "Header")),
      fF "request_bodies" "requestBodies" (some (.vmap [])) (.dict .anyD),
      fF "security_schemes" "securitySchemes" (some (.vmap [])) (.dict .anyD)]),
   ("ServerVar", .prodOf "ServerVar"
     [fF "default" "default" none (.scalar .kstr),
      fF "enum" "enum" none (.seqOf (.scalar .kstr)),
      fF "description" "description" (some (.vstr "")) (.scalar .kstr)]),
   ("Server", .prodOf "Server"
     [fF "url" "url" none (.scalar .kstr),
      fF "description" "description" (some (.vstr "")) (.scalar .kstr),
      fF "variables" "variables" (some (.vmap [])) (.dict (.named "ServerVar"))]),
   ("InfoLicense", .prodOf "InfoLicense"
     [fF "name" "name" none (.scalar .kstr),
      fF "url" "url" (some (.vstr "")) (.scalar .kstr)]),
   ("InfoContact", .prodOf "InfoContact"
     [fF "name" "name" none (.opt (.scalar .kstr)),
      fF "email" "email" none (.opt (.scalar .kstr)),
      fF "url" "url" none (.opt (.scalar .kstr))]),
   ("Info", .prodOf "Info"
     [fF "version" "version" none (.scalar .kstr),
      fF "title" "title" none (.scalar .kstr),
      fF "license" "license" none (.opt (.named "InfoLicense")),
      fF "contact" "contact" none (.opt (.named "InfoContact")),
      fF "terms_of_service" "termsOfService" (some (.vstr "")) (.scalar .kstr),
      fF "description" "description" (some (.vstr "")) (.scalar .kstr)]),
   ("SpecFormat", .enumOf ["3.0.0", "3.0.1", "3.0.2", "3.0.3"]),
   ("ExternalDoc", .prodOf "ExternalDoc"
     [fF "url" "url" none (.scalar .kstr),
      fF "description" "description" (some (.vstr "")) (.scalar .kstr)]),
   ("RequestBodySchema", .prodOf "RequestBodySchema"
     [fF "schema" "schema" none (.named "SchemaType")]),
   ("RequestBody", .prodOf "RequestBody"
     [fF "content" "content" none (.dict (.named "RequestBodySchema")),
      fF "description" "description" (some (.vstr "")) (.scalar .kstr),
      fF "required" "required" (some (.vbool false)) (.scalar .kbool)]),
   ("Operation", .prodOf "Operation"
     [fF "responses" "responses" none (.dict (.sumOf [.named "Reference", .named "Response"])),
      fF "external_docs" "externalDocs" none (.opt (.named "ExternalDoc")),
      fF "summary" "summary" (some (.vstr "")) (.scalar .kstr),
      fF "operation_id" "operationId" (some (.vstr "")) (.scalar .kstr),
      fF "parameters" "parameters" (some (.vset []))
        (.setOf (.sumOf [.named "OperationParameter", .named "Reference"])),
      fF "request_body" "requestBody" (some (.vopt none))
        (.opt (.sumOf [.named "RequestBody", .named "Reference"])),
      fF "description" "description" (some (.vstr "")) (.scalar .kstr),
      fF "tags" "tags" (some (.vset [])) (.setOf (.scalar .kstr)),
      fF "callbacks" "callbacks" (some (.vmap [])) (.dict (.dict .anyD)),
      fF "security" "security" (some (.vany .null)) .anyD]),
   ("PathItem", .prodOf "PathItem"
     [fF "head" "head" none (.opt (.named "Operation")),
      fF "get" "get" none (.opt (.named "Operation")),
      fF "post" "post" none (.opt (.named "Operation")),
      fF "put" "put" none (.opt (.named "Operation")),
      fF "patch" "patch" none (.opt (.named "Operation")),
      fF "delete" "delete" none (.opt (.named "Operation")),
      fF "trace" "trace" none (.opt (.named "Operation")),
      fF "servers" "servers" (some (.vseq [])) (.seqOf (.named "Server")),
      fF "ref" "$ref" (some (.vopt none)) (.opt (.scalar .kstr)),
      fF "summary" "summary" (some (.vstr "")) (.scalar .kstr),
      fF "description" "description" (some (.vstr "")) (.scalar .kstr)]),
   ("SpecTag", .prodOf "SpecTag"
     [fF "name" "name" none (.scalar .kstr),
      fF "external_docs" "externalDocs" none (.opt (.named "ExternalDoc")),
      fF "description" "description" (some (.vstr "")) (.scalar .kstr)]),
   ("OpenAPI", .prodOf "OpenAPI"
     [fF "openapi" "openapi" none (.named "SpecFormat"),
      fF "info" "info" none (.named "Info"),
      fF "paths" "paths" none (.dict (.named "PathItem")),
      fF "components" "components" (some componentsDefault) (.named "Components"),
      fF "servers" "servers" (some (.vseq [])) (.seqOf (.named "Server")),
      fF "security" "security" (some (.vseq [])) (.seqOf (.dict (.seqOf (.scalar .kstr)))),
      fF "tags" "tags" (some (.vseq [])) (.seqOf (.named "SpecTag")),
      fF "external_docs" "externalDocs" (some (.vopt none)) (.opt (.named "ExternalDoc"))])]

/-- The root descriptor: `TypeGenerator & overrides ^ OpenAPI` builds the
generator for root type `OpenAPI` (source line 330). -/
def rootDesc : Desc := .named "OpenAPI"

/-- `parse_spec`: decode a document tree against the `OpenAPI` root type
(source line 330). -/
def parse_spec (n : Node) : Except DErr Value :=
  decode recursionLimit specEnv rootDesc n ""

/-- `serialize_spec`: encode a typed `OpenAPI` value back to a document
tree (source line 330). -/
def serialize_spec (v : Value) : Except DErr Node :=
  encode recursionLimit specEnv rootDesc v ""

/-- Every product field's hardcoded external name in `specEnv` agrees with
the Override Registry resolution rule for its (type, identifier) pair. -/
def extNamesConsistent : Bool :=
  specEnv.all fun e =>
    match e.2 with
    | .prodOf ty flds => flds.all fun f => fext f = resolveKey ty (fid f)
    | _ => true

/-- Result-shape test: is a decode result the depth-guard error? -/
def rleV : Except DErr Value → Bool
  | .error (.recursionLimitExceeded _ _) => true
  | _ => false

/-- Result-shape test: is an encode result the depth-guard error? -/
def rleN : Except DErr Node → Bool
  | .error (.recursionLimitExceeded _ _) => true
  | _ => false

/-- The end-to-end example document of spec section 8. -/
def docC4 : Node :=
  .map [("openapi", .str "3.0.2"),
        ("info", .map [("version", .str "1.0"), ("title", .str "T")]),
        ("paths", .map [])]

/-- The typed value of `docC4`: spec format 3.0.2, `Info` with absent
license and contact, empty paths, and every remaining field at its
declared default. -/
def valC4 : Value :=
  .vprod "OpenAPI"
    [("openapi", .venum "3.0.2"),
     ("info", .vprod "Info"
       [("version", .vstr "1.0"), ("title", .vstr "T"),
        ("license", .vopt none), ("contact", .vopt none),
        ("terms_of_service", .vstr ""), ("description", .vstr "")]),
     ("paths", .vmap []),
     ("components", componentsDefault),
     ("servers", .vseq []),
     ("security", .vseq []),
     ("tags", .vseq []),
     ("external_docs", .vopt none)]

/-- The reference node of spec section 8's variant-order property. -/
def refNodeC2 : Node := .map [("$ref", .str "#/components/schemas/Pet")]

def refValC2 : Value := .vprod "Reference" [("ref", .vstr "#/components/schemas/Pet")]

/-- A `{"in": "query", "name": "id", ...}` parameter mapping node. -/
def paramNodeC3 : Node :=
  .map [("in", .str "query"), ("name", .str "id"),
        ("schema", .map [("type", .str "string")])]

/-- The decoded `{"type": "string"}` schema, defaults filled in. -/
def stringSchemaVal : Value :=
  .vprod "StringValue"
    [("type", .vstr "string"), ("format", .vstr ""), ("description", .vstr ""),
     ("enum", .vseq []), ("default", .vopt none), ("pattern", .vopt none),
     ("example", .vstr ""), ("nullable", .vopt none)]

def paramValC3 : Value :=
  .vprod "OperationParameter"
    [("name", .vstr "id"),
     ("in_", .venum "query"),
     ("schema", .vvariant 0 stringSchemaVal),
     ("required", .vbool false),
     ("description", .vstr ""),
     ("style", .vopt none),
     ("explode", .vopt none)]

/-- Free-form object values decoded for the three inputs of spec section
8's free-form property: `additional_properties` absent, boolean true, and
a decoded nested schema. -/
def objValC5 (ap : Option Value) : Value :=
  .vvariant 11 (.vprod "ObjectWithAdditionalProperties"
    [("type", .vstr "object"), ("additional_properties", .vopt ap),
     ("nullable", .vopt none)])

/-- An array-of-array schema node nested `d` levels, string at the
bottom. -/
def nestedArr : Nat → Node
  | 0 => .map [("type", .str "string")]
  | d + 1 => .map [("type", .str "array"), ("items", nestedArr d)]

/-- The typed value of `nestedArr d`: `ArrayValue` variants (alternative
index 5 of `SchemaType`) around a `StringValue` variant (index 0). -/
def nestedVal : Nat → Value
  | 0 => .vvariant 0 stringSchemaVal
  | d + 1 => .vvariant 5 (.vprod "ArrayValue"
      [("type", .vstr "array"), ("items", nestedVal d),
       ("description", .vstr ""), ("nullable", .vopt none)])

/-- A full document carrying an array-of-array schema nested `d` levels
under `components.schemas.S`. -/
def docDeep (d : Nat) : Node :=
  .map [("openapi", .str "3.0.2"),
        ("info", .map [("version", .str "1.0"), ("title", .str "T")]),
        ("paths", .map []),
        ("components", .map [("schemas", .map [("S", nestedArr d)])])]

/-- The typed value of `docDeep d`. -/
def valDeep (d : Nat) : Value :=
  .vprod "OpenAPI"
    [("openapi", .venum "3.0.2"),
     ("info", .vprod "Info"
       [("version", .vstr "1.0"), ("title", .vstr "T"),
        ("license", .vopt none), ("contact", .vopt none),
        ("terms_of_service", .vstr ""), ("description", .vstr "")]),
     ("paths", .vmap []),
     ("components", .vprod "Components"
       [("schemas", .vmap [("S", nestedVal d)]),
        ("links", .vmap []), ("parameters", .vmap []), ("responses", .vmap []),
        ("headers", .vmap []), ("request_bodies", .vmap []),
        ("security_schemes", .vmap [])]),
     ("servers", .vseq []),
     ("security", .vseq []),
     ("tags", .vseq []),
     ("external_docs", .vopt none)]

/-- Bounded conformance check: does a typed value fit a descriptor?  This
is the decidable mirror of "constructible from the Type Descriptor Model"
(spec sections 3 and 4.4); the fuel bounds unfolding of named descriptor
references. -/
def conformsB : Nat → Env → Desc → Value → Bool
  | 0, _, _, _ => false
  | c + 1, env, d, v =>
    match d, v with
    | .scalar .kstr, .vstr _ => true
    | .scalar .kint, .vint _ => true
    | .scalar .kfloat, .vfloat _ => true
    | .scalar .kbool, .vbool _ => true
    | .lit s, .vstr s' => s' == s
    | .enumOf vals, .venum s => vals.contains s
    | .opt _, .vopt none => true
    | .opt d', .vopt (some w) => conformsB c env d' w
    | .seqOf d', .vseq vs => vs.all (fun w => conformsB c env d' w)
    | .setOf d', .vset vs => vs.all (fun w => conformsB c env d' w) && decide vs.Nodup
    | .dict d', .vmap es => es.all (fun e => conformsB c env d' e.2)
    | .prodOf ty flds, .vprod ty' fvs =>
      ty' == ty && flds.length == fvs.length &&
      (flds.zip fvs).all (fun e => e.2.1 == fid e.1 && conformsB c env (fdesc e.1) e.2.2)
    | .sumOf alts, .vvariant i w =>
      match alts[i]? with
      | some a => conformsB c env a w
      | none => false
    | .named n, w =>
      match lookupA env n with
      | some d' => conformsB c env d' w
      | none => false
    | .anyD, .vany _ => true
    | _, _ => false

/-- Fuel used when checking that declared field defaults conform to their
field descriptors. -/
def ckDef : Nat := 32

/-- Shallow "encodes only to mapping nodes" test: products and
fixed-value-type mappings emit mappings; a named reference is looked up in
a whitelist. -/
def mapLike0 (ml : List String) : Desc → Bool
  | .prodOf _ _ => true
  | .dict _ => true
  | .named n => ml.contains n
  | _ => false

/-- "Encodes only to mapping nodes": like `mapLike0`, plus sums all of
whose alternatives are shallowly map-like. -/
def mapLike (ml : List String) : Desc → Bool
  | .sumOf alts => alts.all (mapLike0 ml)
  | d => mapLike0 ml d

/-- Shallow "never encodes to null" test, with a whitelist for named
references. -/
def nonNull0 (nn : List String) : Desc → Bool
  | .scalar _ => true
  | .lit _ => true
  | .enumOf _ => true
  | .seqOf _ => true
  | .setOf _ => true
  | .dict _ => true
  | .prodOf _ _ => true
  | .named n => nn.contains n
  | _ => false

/-- "Never encodes to null": like `nonNull0`, plus sums all of whose
alternatives satisfy the shallow test. -/
def nonNull (nn : List String) : Desc → Bool
  | .sumOf alts => alts.all (nonNull0 nn)
  | d => nonNull0 nn d

/-- Resolve a descriptor to product fields, through at most one named
reference. -/
def resolveProd (env : Env) : Desc → Option (List FieldT)
  | .prodOf _ flds => some flds
  | .named n =>
    match lookupA env n with
    | some (.prodOf _ flds) => some flds
    | _ => none
  | _ => none

/-- The literal string emitted under external key `k` by a product with
fields `flds`, when that key belongs to a literal field without a default
(such fields are always emitted). -/
def litAt (flds : List FieldT) (k : String) : Option String :=
  match flds.find? (fun g => fext g == k && (fdef g).isNone) with
  | some g =>
    match fdesc g with
    | .lit s => some s
    | _ => none
  | none => none

/-- Sum-variant discrimination (spec section 4.3, "Sum": order is a
load-bearing contract): `discrimB ml env dj di` is a sufficient syntactic
condition for "decoding any encoding of a `di` value against `dj` fails":
either `dj` is a scalar and `di` encodes only to mappings, or both resolve
to products and `dj` demands a required key `di` never emits, or `dj`
carries a literal discriminator that clashes with the literal `di` always
emits under the same key. -/
def discrimB (ml : List String) (env : Env) (dj di : Desc) : Bool :=
  (match dj with
   | .scalar _ => mapLike ml di
   | _ => false)
  ||
  ((match dj with
    | .prodOf _ _ => true
    | .named _ =>
      (match di with
       | .named _ => true
       | _ => false)
    | _ => false)
   &&
   (match resolveProd env dj, resolveProd env di with
    | some fj, some fi =>
      fj.any (fun f =>
        (isRequiredF f && !((fi.map fext).contains (fext f)))
        ||
        (match fdesc f with
         | .lit s =>
           (match litAt fi (fext f) with
            | some s' => decide (s ≠ s')
            | none => false)
         | _ => false))
    | _, _ => false))

/-- Every earlier alternative discriminates against every later one. -/
def pairsDiscrim (ml : List String) (env : Env) : List Desc → Bool
  | [] => true
  | a :: rest => rest.all (fun b => discrimB ml env a b) && pairsDiscrim ml env rest

/-- Structural well-formedness of a descriptor (fuel-bounded): product
external names are distinct and declared defaults conform; sum
alternatives pairwise discriminate in declared order; optional inners
never encode to null; named references resolve. -/
def descOK : Nat → List String → List String → Env → Desc → Bool
  | 0, _, _, _, _ => false
  | c + 1, ml, nn, env, d =>
    match d with
    | .scalar _ => true
    | .lit _ => true
    | .enumOf _ => true
    | .anyD => true
    | .opt d' => nonNull nn d' && descOK c ml nn env d'
    | .seqOf d' => descOK c ml nn env d'
    | .setOf d' => descOK c ml nn env d'
    | .dict d' => descOK c ml nn env d'
    | .prodOf _ flds =>
      decide (flds.map fext).Nodup &&
      flds.all (fun f =>
        descOK c ml nn env (fdesc f) &&
        (match fdef f with
         | some dv => conformsB ckDef env (fdesc f) dv
         | none => true))
    | .sumOf alts =>
      pairsDiscrim ml env alts && alts.all (fun a => descOK c ml nn env a)
    | .named n => (lookupA env n).isSome

/-- Environment-wide well-formedness: every entry is `descOK`, the
map-like whitelist is correct, and the non-null whitelist is correct. -/
def envOK (c : Nat) (ml nn : List String) (env : Env) : Bool :=
  env.all (fun e => descOK c ml nn env e.2)
  && ml.all (fun n =>
       match lookupA env n with
       | some d => mapLike ml d
       | none => false)
  && nn.all (fun n =>
       match lookupA env n with
       | some d => nonNull nn d
       | none => false)

/-- The map-like whitelist for the OpenAPI environment: every schema
variant class and the schema union itself. -/
def mlNames : List String :=
  ["StringValue", "IntegerValue", "FloatValue", "BooleanValue", "ObjectValue",
   "ArrayValue", "ResponseRef", "Reference", "ProductSchemaType",
   "UnionSchemaTypeAny", "UnionSchemaTypeOne", "ObjectWithAdditionalProperties",
   "InlinedObjectValue", "EmptyValue", "SchemaType"]

/-- The non-null whitelist: every named descriptor of the environment. -/
def nnNames : List String := specEnv.map Prod.fst

/-- Whether a node is one of the four admissible `SpecFormat` version
strings (source lines 244-248). -/
def specFormatOK : Node → Bool
  | .str s => ["3.0.0", "3.0.1", "3.0.2", "3.0.3"].contains s
  | _ => false

theorem lookupA_mem {α : Type} {l : List (String × α)} {k : String} {v : α}
    (h : lookupA l k = some v) : (k, v) ∈ l := by
  induction l with
  | nil => simp [lookupA] at h
  | cons e rest ih =>
    obtain ⟨k', v'⟩ := e
    by_cases hk : k = k'
    · subst hk
      simp [lookupA] at h
      simp [h]
    · simp [lookupA, hk] at h
      exact List.mem_cons_of_mem _ (ih h)

theorem lookupA_none_of_not_mem {α : Type} {l : List (String × α)} {k : String}
    (h : k ∉ l.map Prod.fst) : lookupA l k = none := by
  induction l with
  | nil => rfl
  | cons e rest ih =>
    obtain ⟨k', v'⟩ := e
    simp only [List.map_cons, List.mem_cons] at h
    push_neg at h
    simp [lookupA, h.1, ih h.2]

theorem lookupA_some_of_mem_nodup {α : Type} {l : List (String × α)} {k : String} {v : α}
    (hm : (k, v) ∈ l) (hn : (l.map Prod.fst).Nodup) : lookupA l k = some v := by
  induction l with
  | nil => simp at hm
  | cons e rest ih =>
    obtain ⟨k', v'⟩ := e
    rw [List.map_cons, List.nodup_cons] at hn
    rcases List.mem_cons.1 hm with h | h
    · obtain ⟨h1, h2⟩ := Prod.mk.inj h
      subst h1; subst h2
      simp [lookupA]
    · have hk : k ≠ k' := by
        intro he
        apply hn.1
        rw [← he]
        exact List.mem_map.2 ⟨(k, v), h, rfl⟩
      simp [lookupA, hk]
      exact ih h hn.2

theorem encode_pos {f : Nat} {env d v p n} (h : encode f env d v p = .ok n) : 1 ≤ f := by
  cases f with
  | zero => simp [encode] at h
  | succ g => omega

theorem encode_lit_shape {f : Nat} {env s v p n}
    (h : encode f env (.lit s) v p = .ok n) : n = .str s := by
  cases f with
  | zero => simp [encode] at h
  | succ g =>
    cases v <;> simp [encode] at h
    split at h
    · exact (Except.ok.inj h).symm
    · exact absurd h (by simp)

theorem encode_named_min {f : Nat} {env x v p n}
    (h : encode f env (.named x) v p = .ok n) : 2 ≤ f := by
  cases f with
  | zero => simp [encode] at h
  | succ g =>
    cases g with
    | zero =>
      rcases hl : lookupA env x with _ | d' <;> simp [encode, hl] at h
    | succ g' => omega

theorem decode_opt_nonnull {g : Nat} {env d' n p} (hn : n ≠ Node.null) :
    decode (g + 1) env (.opt d') n p =
      (decode g env d' n p).map (fun v => .vopt (some v)) := by
  cases n with
  | null => exact absurd rfl hn
  | bool b => rfl
  | int m => rfl
  | float q => rfl
  | str s => rfl
  | arr l => rfl
  | map es => rfl

theorem scalarMatches_map_false (k : Kind) (es : List (String × Node)) :
    scalarMatches k (.map es) = false := by
  cases k <;> rfl

theorem decode_scalar_fail {g : Nat} {env k node p} (h : scalarMatches k node = false) :
    decode (g + 1) env (.scalar k) node p =
      .error (.typeMismatch p (scalarKindName k) (nodeKindName node)) := by
  cases k <;> cases node <;> simp_all [scalarMatches, decode, scalarDecode]

theorem fieldShapeErr_not_rle {f es p e} (h : fieldShapeErr f es p = some e) :
    isRLEerr e = false := by
  unfold fieldShapeErr at h
  split at h
  · split at h
    · cases h; rfl
    · cases h
  · split at h
    · split at h
      · split at h
        · cases h
        · cases h; rfl
      · cases h; rfl
    · cases h

theorem checkShape_not_rle {flds : List FieldT} {es p e}
    (h : checkShape flds es p = some e) : isRLEerr e = false := by
  induction flds with
  | nil => cases h
  | cons f rest ih =>
    unfold checkShape at h
    rcases hf : fieldShapeErr f es p with _ | e' <;> rw [hf] at h
    · exact ih h
    · cases h
      exact fieldShapeErr_not_rle hf

theorem checkShape_some_of_mem {flds : List FieldT} {es p f e'}
    (hm : f ∈ flds) (hf : fieldShapeErr f es p = some e') :
    ∃ e, checkShape flds es p = some e := by
  induction flds with
  | nil => cases hm
  | cons g rest ih =>
    unfold checkShape
    rcases hg : fieldShapeErr g es p with _ | e0
    · rcases List.mem_cons.1 hm with h | h
      · subst h
        rw [hg] at hf
        cases hf
      · exact ih h
    · exact ⟨e0, rfl⟩

theorem checkShape_none_of {flds : List FieldT} {es p}
    (h : ∀ f ∈ flds, fieldShapeErr f es p = none) :
    checkShape flds es p = none := by
  induction flds with
  | nil => rfl
  | cons g rest ih =>
    unfold checkShape
    rw [h g (List.mem_cons_self g rest)]
    exact ih (fun f hf => h f (List.mem_cons_of_mem g hf))

theorem checkShape_first {pre : List FieldT} {f : FieldT} {post es p e}
    (hpre : ∀ g ∈ pre, fieldShapeErr g es p = none)
    (hf : fieldShapeErr f es p = some e) :
    checkShape (pre ++ f :: post) es p = some e := by
  induction pre with
  | nil =>
    rw [List.nil_append]
    unfold checkShape
    rw [hf]
  | cons g rest ih =>
    rw [List.cons_append]
    unfold checkShape
    rw [hpre g (List.mem_cons_self g rest)]
    exact ih (fun g' hg' => hpre g' (List.mem_cons_of_mem g hg'))

theorem decode_prod_fail {g : Nat} {env ty flds es p e}
    (h : checkShape flds es p = some e) :
    decode (g + 1) env (.prodOf ty flds) (.map es) p = .error e := by
  simp [decode, h]

theorem encFields_align {enc} :
    ∀ {flds : List FieldT} {fvs : List (String × Value)} {p es},
      encFields enc flds fvs p = .ok es →
      flds.length = fvs.length ∧
      ∀ f id w, (f, (id, w)) ∈ flds.zip fvs → id = fid f := by
  intro flds
  induction flds with
  | nil =>
    intro fvs p es h
    cases fvs with
    | nil => simp
    | cons e t => simp [encFields] at h
  | cons f rest ih =>
    intro fvs p es h
    cases fvs with
    | nil => simp [encFields] at h
    | cons e fvs' =>
      obtain ⟨id0, w0⟩ := e
      unfold encFields at h
      split at h
      · rename_i hid
        constructor
        · by_cases hs : skipB f w0 = true
          · rw [if_pos hs] at h
            simpa using (ih h).1
          · rw [if_neg hs] at h
            rcases hn : enc (fdesc f) w0 with e0 | n0 <;> rw [hn] at h
            · exact Except.noConfusion h
            · rcases ht : encFields enc rest fvs' p with e1 | tl <;> rw [ht] at h
              · exact Except.noConfusion h
              · simpa using (ih ht).1
        · intro f' id w hm
          have hm' : (f' = f ∧ id = id0 ∧ w = w0) ∨ (f', id, w) ∈ rest.zip fvs' := by
            simpa using hm
          rcases hm' with ⟨h1, h2, h3⟩ | hh
          · subst h1; subst h2
            exact hid
          · by_cases hs : skipB f w0 = true
            · rw [if_pos hs] at h
              exact (ih h).2 f' id w hh
            · rw [if_neg hs] at h
              rcases hn : enc (fdesc f) w0 with e0 | n0 <;> rw [hn] at h
              · exact Except.noConfusion h
              · rcases ht : encFields enc rest fvs' p with e1 | tl <;> rw [ht] at h
                · exact Except.noConfusion h
                · exact (ih ht).2 f' id w hh
      · simp at h

theorem encFields_cons_inv {enc} {f : FieldT} {rest : List FieldT} {id0 w0}
    {fvs' : List (String × Value)} {p es}
    (h : encFields enc (f :: rest) ((id0, w0) :: fvs') p = .ok es) :
    id0 = fid f ∧
    ((skipB f w0 = true ∧ encFields enc rest fvs' p = .ok es) ∨
     (skipB f w0 = false ∧ ∃ n0 tl, enc (fdesc f) w0 = .ok n0 ∧
        encFields enc rest fvs' p = .ok tl ∧ es = (fext f, n0) :: tl)) := by
  unfold encFields at h
  split at h
  · rename_i hid
    refine ⟨hid, ?_⟩
    by_cases hs : skipB f w0 = true
    · rw [if_pos hs] at h
      exact Or.inl ⟨hs, h⟩
    · rw [if_neg hs] at h
      rcases hn : enc (fdesc f) w0 with e0 | n0 <;> rw [hn] at h
      · exact Except.noConfusion h
      · rcases ht : encFields enc rest fvs' p with e1 | tl <;> rw [ht] at h
        · exact Except.noConfusion h
        · refine Or.inr ⟨by simpa using hs, n0, tl, rfl, rfl, ?_⟩
          have : ((id0, w0) :: fvs').length = ((id0, w0) :: fvs').length := rfl
          simpa using (Except.ok.inj h).symm
  · exact Except.noConfusion h

theorem encFields_nil_inv {enc} {fvs : List (String × Value)} {p es}
    (h : encFields enc [] fvs p = .ok es) : fvs = [] ∧ es = [] := by
  cases fvs with
  | nil =>
    refine ⟨rfl, ?_⟩
    simpa [encFields] using (Except.ok.inj h).symm
  | cons e t => exact absurd h (by simp [encFields])

theorem encFields_keys {enc} :
    ∀ {flds : List FieldT} {fvs : List (String × Value)} {p es},
      encFields enc flds fvs p = .ok es →
      List.Sublist (es.map Prod.fst) (flds.map fext) := by
  intro flds
  induction flds with
  | nil =>
    intro fvs p es h
    rcases encFields_nil_inv h with ⟨_, he⟩
    subst he
    simp
  | cons f rest ih =>
    intro fvs p es h
    cases fvs with
    | nil => exact absurd h (by simp [encFields])
    | cons e fvs' =>
      obtain ⟨id0, w0⟩ := e
      rcases (encFields_cons_inv h).2 with ⟨_, ht⟩ | ⟨_, n0, tl, _, ht, he⟩
      · exact List.Sublist.cons _ (ih ht)
      · subst he
        simp only [List.map_cons]
        exact List.Sublist.cons₂ (fext f) (ih ht)

theorem encFields_lit {enc}
    (hlit : ∀ s w n, enc (.lit s) w = .ok n → n = Node.str s) :
    ∀ {flds : List FieldT} {fvs : List (String × Value)} {p es},
      encFields enc flds fvs p = .ok es →
      ∀ f s, f ∈ flds → fdesc f = .lit s → fdef f = none →
        (fext f, Node.str s) ∈ es := by
  intro flds
  induction flds with
  | nil => intro fvs p es h f s hm; cases hm
  | cons g rest ih =>
    intro fvs p es h f s hm hd hnd
    cases fvs with
    | nil => exact absurd h (by simp [encFields])
    | cons e fvs' =>
      obtain ⟨id0, w0⟩ := e
      rcases List.mem_cons.1 hm with hh | hh
      · subst hh
        rcases (encFields_cons_inv h).2 with ⟨hs, _⟩ | ⟨_, n0, tl, hn, _, he⟩
        · exfalso
          unfold skipB at hs
          rw [hnd, hd] at hs
          simp [isOptD] at hs
        · subst he
          have := hlit s w0 n0 (by rw [← hd]; exact hn)
          subst this
          exact List.mem_cons_self _ _
      · rcases (encFields_cons_inv h).2 with ⟨_, ht⟩ | ⟨_, n0, tl, _, ht, he⟩
        · exact ih ht f s hh hd hnd
        · subst he
          exact List.mem_cons_of_mem _ (ih ht f s hh hd hnd)

theorem encFields_required {enc} :
    ∀ {flds : List FieldT} {fvs : List (String × Value)} {p es},
      encFields enc flds fvs p = .ok es →
      ∀ f, f ∈ flds → isRequiredF f = true →
        fext f ∈ es.map Prod.fst := by
  intro flds
  induction flds with
  | nil => intro fvs p es h f hm; cases hm
  | cons g rest ih =>
    intro fvs p es h f hm hr
    cases fvs with
    | nil => exact absurd h (by simp [encFields])
    | cons e fvs' =>
      obtain ⟨id0, w0⟩ := e
      rcases List.mem_cons.1 hm with hh | hh
      · subst hh
        rcases (encFields_cons_inv h).2 with ⟨hs, _⟩ | ⟨_, n0, tl, _, _, he⟩
        · exfalso
          unfold skipB at hs
          unfold isRequiredF at hr
          rcases hdf : fdef f with _ | dv
          · rw [hdf] at hs
            simp [hdf] at hr
            simp [hr] at hs
          · rw [hdf] at hr
            simp at hr
        · subst he
          simp
      · rcases (encFields_cons_inv h).2 with ⟨_, ht⟩ | ⟨_, n0, tl, _, ht, he⟩
        · exact ih ht f hh hr
        · subst he
          simp only [List.map_cons]
          exact List.mem_cons_of_mem _ (ih ht f hh hr)

theorem encFields_lookup {enc} :
    ∀ {flds : List FieldT} {fvs : List (String × Value)} {p es},
      encFields enc flds fvs p = .ok es →
      (flds.map fext).Nodup →
      ∀ f id w, (f, (id, w)) ∈ flds.zip fvs →
        (skipB f w = true → lookupA es (fext f) = none) ∧
        (skipB f w = false →
          ∃ n, lookupA es (fext f) = some n ∧ enc (fdesc f) w = .ok n) := by
  intro flds
  induction flds with
  | nil => intro fvs p es h hnod f id w hm; simp at hm
  | cons g rest ih =>
    intro fvs p es h hnod f id w hm
    cases fvs with
    | nil => exact absurd h (by simp [encFields])
    | cons e fvs' =>
      obtain ⟨id0, w0⟩ := e
      rw [List.map_cons, List.nodup_cons] at hnod
      have hm' : (f = g ∧ id = id0 ∧ w = w0) ∨ (f, id, w) ∈ rest.zip fvs' := by
        simpa using hm
      rcases hm' with ⟨h1, h2, h3⟩ | hh
      · subst h1; subst h2; subst h3
        rcases (encFields_cons_inv h).2 with ⟨hs, ht⟩ | ⟨hs, n0, tl, hn, ht, he⟩
        · constructor
          · intro _
            apply lookupA_none_of_not_mem
            intro hmem
            exact hnod.1 ((encFields_keys ht).subset hmem)
          · intro hs'
            rw [hs] at hs'
            cases hs'
        · subst he
          constructor
          · intro hs'
            rw [hs] at hs'
            cases hs'
          · intro _
            exact ⟨n0, by simp [lookupA], hn⟩
      · have hfne : fext f ≠ fext g := by
          intro heq
          apply hnod.1
          rw [← heq]
          have : f ∈ rest := (List.of_mem_zip hh).1
          exact List.mem_map.2 ⟨f, this, rfl⟩
        rcases (encFields_cons_inv h).2 with ⟨hs, ht⟩ | ⟨hs, n0, tl, hn, ht, he⟩
        · exact ih ht hnod.2 f id w hh
        · subst he
          have base := ih ht hnod.2 f id w hh
          constructor
          · intro hsk
            rw [show lookupA ((fext g, n0) :: tl) (fext f) = lookupA tl (fext f) from by
              simp [lookupA, hfne]]
            exact base.1 hsk
          · intro hsk
            rcases base.2 hsk with ⟨n, hl, he'⟩
            refine ⟨n, ?_, he'⟩
            rw [show lookupA ((fext g, n0) :: tl) (fext f) = lookupA tl (fext f) from by
              simp [lookupA, hfne]]
            exact hl

theorem skipB_true_elim {f : FieldT} {w} (h : skipB f w = true) :
    (∃ dv, fdef f = some dv ∧ w = dv) ∨
    (fdef f = none ∧ isOptD (fdesc f) = true ∧ w = Value.vopt none) := by
  unfold skipB at h
  rcases hd : fdef f with _ | dv <;> rw [hd] at h
  · right
    simp at h
    exact ⟨rfl, h.1, h.2⟩
  · left
    exact ⟨dv, rfl, by simpa using h⟩

theorem skipB_not_required {f : FieldT} {w} (h : skipB f w = true) :
    isRequiredF f = false := by
  rcases skipB_true_elim h with ⟨dv, hd, _⟩ | ⟨hd, ho, _⟩
  · simp [isRequiredF, hd]
  · simp [isRequiredF, hd, ho]

theorem mem_zip_left {α β : Type} {l1 : List α} {l2 : List β} {a : α}
    (hlen : l1.length = l2.length) (hm : a ∈ l1) : ∃ b, (a, b) ∈ l1.zip l2 := by
  induction l1 generalizing l2 with
  | nil => cases hm
  | cons x xs ih =>
    cases l2 with
    | nil => simp at hlen
    | cons y ys =>
      rcases List.mem_cons.1 hm with h | h
      · subst h
        exact ⟨y, List.mem_cons_self _ _⟩
      · rcases ih (by simpa using hlen) h with ⟨b, hb⟩
        exact ⟨b, List.mem_cons_of_mem _ hb⟩

theorem decFields_of_pointwise {dec : Desc → Node → String → Except DErr Value} :
    ∀ {flds : List FieldT} {fvs : List (String × Value)} {es : List (String × Node)} {p'},
      flds.length = fvs.length →
      (∀ f id w, (f, (id, w)) ∈ flds.zip fvs →
        id = fid f ∧
        ((lookupA es (fext f) = none ∧
           ((∃ dv, fdef f = some dv ∧ w = dv) ∨
            (fdef f = none ∧ isOptD (fdesc f) = true ∧ w = Value.vopt none)))
         ∨ (∃ n, lookupA es (fext f) = some n ∧
             ∀ p'', dec (fdesc f) n p'' = .ok w))) →
      decFields dec flds es p' = .ok fvs := by
  intro flds
  induction flds with
  | nil =>
    intro fvs es p' hlen hpt
    cases fvs with
    | nil => rfl
    | cons e t => simp at hlen
  | cons f rest ih =>
    intro fvs es p' hlen hpt
    cases fvs with
    | nil => simp at hlen
    | cons e fvs' =>
      obtain ⟨id0, w0⟩ := e
      have hhead := hpt f id0 w0 (by simp)
      have htail := fun f' id w hm =>
        hpt f' id w (by simp only [List.zip_cons_cons]; exact List.mem_cons_of_mem _ hm)
      have htl : decFields dec rest es p' = .ok fvs' := ih (by simpa using hlen) htail
      have hid := hhead.1
      subst hid
      rcases hhead.2 with ⟨hl, ⟨dv, hd, hw⟩ | ⟨hd, ho, hw⟩⟩ | ⟨n, hl, hdec⟩
      · subst hw
        unfold decFields
        rw [hl, hd, htl]
        rfl
      · subst hw
        unfold decFields
        rw [hl, hd, ho, htl]
        rfl
      · unfold decFields
        simp only [hl, hdec (pathExt p' (fext f)), htl]
        rfl

theorem fields_rt {enc : Desc → Value → Except DErr Node}
    {dec : Desc → Node → String → Except DErr Value}
    (hlit : ∀ s w n, enc (.lit s) w = .ok n → n = Node.str s)
    {flds : List FieldT} {fvs : List (String × Value)} {p : String}
    {es : List (String × Node)} {p' : String}
    (h : encFields enc flds fvs p = .ok es)
    (hnod : (flds.map fext).Nodup)
    (hdec : ∀ f id w, (f, (id, w)) ∈ flds.zip fvs →
      ∀ n, enc (fdesc f) w = .ok n → ∀ p'', dec (fdesc f) n p'' = .ok w) :
    checkShape flds es p' = none ∧ decFields dec flds es p' = .ok fvs := by
  have halign := encFields_align h
  have hlk := encFields_lookup h hnod
  constructor
  · apply checkShape_none_of
    intro f hf
    rcases mem_zip_left halign.1 hf with ⟨⟨id, w⟩, hzip⟩
    by_cases hs : skipB f w = true
    · have hl := (hlk f id w hzip).1 hs
      unfold fieldShapeErr
      rw [hl, skipB_not_required hs]
      rfl
    · rcases (hlk f id w hzip).2 (by simpa using hs) with ⟨n, hl, he⟩
      unfold fieldShapeErr
      rw [hl]
      rcases hdd : fdesc f with k | s | vals | d' | d' | d' | d' | ⟨ty, fl⟩ | alts | nm | _
      · rfl
      · have hn : n = Node.str s := hlit s w n (hdd ▸ he)
        subst hn
        simp
      · rfl
      · rfl
      · rfl
      · rfl
      · rfl
      · rfl
      · rfl
      · rfl
      · rfl
  · apply decFields_of_pointwise halign.1
    intro f id w hzip
    refine ⟨halign.2 f id w hzip, ?_⟩
    by_cases hs : skipB f w = true
    · left
      refine ⟨(hlk f id w hzip).1 hs, ?_⟩
      rcases skipB_true_elim hs with ⟨dv, hd, hw⟩ | ⟨hd, ho, hw⟩
      · exact Or.inl ⟨dv, hd, hw⟩
      · exact Or.inr ⟨hd, ho, hw⟩
    · right
      rcases (hlk f id w hzip).2 (by simpa using hs) with ⟨n, hl, he⟩
      exact ⟨n, hl, fun p'' => hdec f id w hzip n he p''⟩

theorem except_map_ok_inv {α β ε : Type} {f : α → β} {r : Except ε α} {b : β}
    (h : r.map f = .ok b) : ∃ a, r = .ok a ∧ b = f a := by
  cases r with
  | error e => simp [Except.map] at h
  | ok a =>
    simp [Except.map] at h
    exact ⟨a, rfl, h.symm⟩

theorem encode_prod_inv {g : Nat} {env ty flds v p n}
    (h : encode (g + 1) env (.prodOf ty flds) v p = .ok n) :
    ∃ fvs es, v = .vprod ty fvs ∧
      encFields (fun d'' w => encode g env d'' w p) flds fvs p = .ok es ∧
      n = .map es := by
  cases v <;> simp only [encode] at h <;> try exact Except.noConfusion h
  case vprod ty' fvs =>
    split at h
    · rename_i hty
      subst hty
      rcases except_map_ok_inv h with ⟨es, he, hn⟩
      exact ⟨fvs, es, rfl, he, hn⟩
    · exact Except.noConfusion h

theorem encode_named_inv {g : Nat} {env x v p n}
    (h : encode (g + 1) env (.named x) v p = .ok n) :
    ∃ d', lookupA env x = some d' ∧ encode g env d' v p = .ok n := by
  rcases hl : lookupA env x with _ | d'
  · rw [show encode (g + 1) env (.named x) v p
        = .error (.invalidDescriptor p x) from by cases v <;> simp [encode, hl]] at h
    exact Except.noConfusion h
  · refine ⟨d', rfl, ?_⟩
    rw [show encode (g + 1) env (.named x) v p = encode g env d' v p from by
      cases v <;> simp [encode, hl]] at h
    exact h

theorem encode_sum_inv {g : Nat} {env alts v p n}
    (h : encode (g + 1) env (.sumOf alts) v p = .ok n) :
    ∃ i w a, v = .vvariant i w ∧ alts[i]? = some a ∧ encode g env a w p = .ok n := by
  cases v <;> simp only [encode] at h <;> try exact Except.noConfusion h
  case vvariant i w =>
    rcases ha : alts[i]? with _ | a <;> rw [ha] at h
    · exact Except.noConfusion h
    · exact ⟨i, w, a, rfl, ha, h⟩

theorem getElem?_mem_list {α : Type} {l : List α} {i : Nat} {a : α}
    (h : l[i]? = some a) : a ∈ l := by
  rcases List.getElem?_eq_some_iff.1 h with ⟨hlt, hget⟩
  exact hget ▸ List.getElem_mem hlt

theorem mapLike0_implies {ml : List String} {d : Desc} (h : mapLike0 ml d = true) :
    mapLike ml d = true := by
  cases d <;> simp_all [mapLike0, mapLike]

theorem nonNull0_implies {nn : List String} {d : Desc} (h : nonNull0 nn d = true) :
    nonNull nn d = true := by
  cases d <;> simp_all [nonNull0, nonNull]

theorem mapLike_encode {ml : List String} {env : Env}
    (hml : (ml.all fun x =>
      match lookupA env x with
      | some d => mapLike ml d
      | none => false) = true) :
    ∀ f {d v p n}, mapLike ml d = true → encode f env d v p = .ok n →
      ∃ es, n = .map es := by
  intro f
  induction f with
  | zero => intro d v p n _ h; simp [encode] at h
  | succ g ih =>
    intro d v p n hm h
    cases d with
    | prodOf ty flds =>
      rcases encode_prod_inv h with ⟨fvs, es, _, _, hn⟩
      exact ⟨es, hn⟩
    | dict d' =>
      cases v <;> simp only [encode] at h <;> try exact Except.noConfusion h
      case vmap es' =>
        rcases except_map_ok_inv h with ⟨nes, _, hn⟩
        exact ⟨nes, hn⟩
    | named x =>
      rcases encode_named_inv h with ⟨d', hl, he⟩
      have hmem : x ∈ ml := by
        simpa using (by simpa [mapLike, mapLike0] using hm : ml.contains x = true)
      have := List.all_eq_true.1 hml x hmem
      rw [hl] at this
      exact ih this he
    | sumOf alts =>
      rcases encode_sum_inv h with ⟨i, w, a, _, ha, he⟩
      have h0 : mapLike0 ml a = true :=
        List.all_eq_true.1 (by simpa [mapLike] using hm) a (getElem?_mem_list ha)
      exact ih (mapLike0_implies h0) he
    | scalar k => simp [mapLike, mapLike0] at hm
    | lit s => simp [mapLike, mapLike0] at hm
    | enumOf vals => simp [mapLike, mapLike0] at hm
    | opt d' => simp [mapLike, mapLike0] at hm
    | seqOf d' => simp [mapLike, mapLike0] at hm
    | setOf d' => simp [mapLike, mapLike0] at hm
    | anyD => simp [mapLike, mapLike0] at hm

theorem nonNull_encode {nn : List String} {env : Env}
    (hnn : (nn.all fun x =>
      match lookupA env x with
      | some d => nonNull nn d
      | none => false) = true) :
    ∀ f {d v p n}, nonNull nn d = true → encode f env d v p = .ok n →
      n ≠ .null := by
  intro f
  induction f with
  | zero => intro d v p n _ h; simp [encode] at h
  | succ g ih =>
    intro d v p n hm h
    cases d with
    | scalar k =>
      cases k <;> cases v <;> simp only [encode] at h <;>
        first
        | exact Except.noConfusion h
        | (cases h; simp)
    | lit s =>
      have := encode_lit_shape h
      subst this
      simp
    | enumOf vals =>
      cases v <;> simp only [encode] at h <;> try exact Except.noConfusion h
      case venum s =>
        split at h
        · cases h; simp
        · exact Except.noConfusion h
    | seqOf d' =>
      cases v <;> simp only [encode] at h <;> try exact Except.noConfusion h
      case vseq vs =>
        rcases except_map_ok_inv h with ⟨ns, _, hn⟩
        simp [hn]
    | setOf d' =>
      cases v <;> simp only [encode] at h <;> try exact Except.noConfusion h
      case vset vs =>
        rcases except_map_ok_inv h with ⟨ns, _, hn⟩
        simp [hn]
    | dict d' =>
      cases v <;> simp only [encode] at h <;> try exact Except.noConfusion h
      case vmap es' =>
        rcases except_map_ok_inv h with ⟨nes, _, hn⟩
        simp [hn]
    | prodOf ty flds =>
      rcases encode_prod_inv h with ⟨fvs, es, _, _, hn⟩
      simp [hn]
    | named x =>
      rcases encode_named_inv h with ⟨d', hl, he⟩
      have hmem : x ∈ nn := by
        simpa using (by simpa [nonNull, nonNull0] using hm : nn.contains x = true)
      have := List.all_eq_true.1 hnn x hmem
      rw [hl] at this
      exact ih this he
    | sumOf alts =>
      rcases encode_sum_inv h with ⟨i, w, a, _, ha, he⟩
      have h0 : nonNull0 nn a = true :=
        List.all_eq_true.1 (by simpa [nonNull] using hm) a (getElem?_mem_list ha)
      exact ih (nonNull0_implies h0) he
    | opt d' => simp [nonNull, nonNull0] at hm
    | anyD => simp [nonNull, nonNull0] at hm

theorem resolveProd_named_elim {env : Env} {y : String} {fi : List FieldT}
    (h : resolveProd env (.named y) = some fi) :
    ∃ ty, lookupA env y = some (.prodOf ty fi) := by
  have h' : (match lookupA env y with
    | some (Desc.prodOf _ flds) => some flds
    | _ => none) = some fi := h
  rcases hl : lookupA env y with _ | dy <;> rw [hl] at h'
  · simp at h'
  · cases dy <;> simp at h'
    rename_i ty flds
    exact ⟨ty, by rw [h']⟩

theorem encode_resolveProd_out {env : Env} {di : Desc} {fi : List FieldT}
    {g : Nat} {v p n}
    (hr : resolveProd env di = some fi) (h : encode g env di v p = .ok n) :
    ∃ es, n = .map es ∧
      List.Sublist (es.map Prod.fst) (fi.map fext) ∧
      (∀ f s, f ∈ fi → fdesc f = .lit s → fdef f = none → (fext f, Node.str s) ∈ es) ∧
      (∀ f, f ∈ fi → isRequiredF f = true → fext f ∈ es.map Prod.fst) := by
  cases di with
  | prodOf ty flds =>
    have hfi : flds = fi := by simpa [resolveProd] using hr
    subst hfi
    cases g with
    | zero => simp [encode] at h
    | succ g' =>
      rcases encode_prod_inv h with ⟨fvs, es, _, hef, hn⟩
      refine ⟨es, hn, encFields_keys hef, ?_, ?_⟩
      · intro f s hm hd hnd
        exact encFields_lit (fun s' w' n' hh => encode_lit_shape hh) hef f s hm hd hnd
      · intro f hm hrq
        exact encFields_required hef f hm hrq
  | named x =>
    rcases resolveProd_named_elim hr with ⟨ty, hl⟩
    cases g with
    | zero => simp [encode] at h
    | succ g' =>
      rcases encode_named_inv h with ⟨dx, hl', he⟩
      rw [hl] at hl'
      have hdx : Desc.prodOf ty fi = dx := by simpa using hl'
      subst hdx
      cases g' with
      | zero => simp [encode] at he
      | succ g'' =>
        rcases encode_prod_inv he with ⟨fvs, es, _, hef, hn⟩
        refine ⟨es, hn, encFields_keys hef, ?_, ?_⟩
        · intro f s hm hd hnd
          exact encFields_lit (fun s' w' n' hh => encode_lit_shape hh) hef f s hm hd hnd
        · intro f hm hrq
          exact encFields_required hef f hm hrq
  | scalar k => simp [resolveProd] at hr
  | lit s => simp [resolveProd] at hr
  | enumOf vals => simp [resolveProd] at hr
  | opt d' => simp [resolveProd] at hr
  | seqOf d' => simp [resolveProd] at hr
  | setOf d' => simp [resolveProd] at hr
  | dict d' => simp [resolveProd] at hr
  | sumOf alts => simp [resolveProd] at hr
  | anyD => simp [resolveProd] at hr

theorem litAt_elim {flds : List FieldT} {k s : String} (h : litAt flds k = some s) :
    ∃ g, g ∈ flds ∧ fext g = k ∧ fdef g = none ∧ fdesc g = .lit s := by
  unfold litAt at h
  rcases hf : flds.find? (fun g => fext g == k && (fdef g).isNone) with _ | g <;>
    rw [hf] at h
  · simp at h
  · have hmem := List.mem_of_find?_eq_some hf
    have hpred := List.find?_some hf
    simp at hpred
    have h' : (match fdesc g with
      | Desc.lit s0 => some s0
      | _ => none) = some s := h
    rcases hd : fdesc g with _ | s' | _ | _ | _ | _ | _ | _ | _ | _ | _ <;>
      rw [hd] at h' <;> simp at h'
    subst h'
    exact ⟨g, hmem, hpred.1, hpred.2, hd⟩

theorem decode_named_prod_fail {g : Nat} {env x ty flds es p e}
    (hf : 2 ≤ g)
    (hl : lookupA env x = some (.prodOf ty flds))
    (h : checkShape flds es p = some e) :
    decode g env (.named x) (.map es) p = .error e := by
  rcases g with _ | _ | g'
  · omega
  · omega
  · rw [show decode (g' + 1 + 1) env (.named x) (.map es) p
        = decode (g' + 1) env (.prodOf ty flds) (.map es) p from by simp [decode, hl]]
    exact decode_prod_fail h

theorem dec_attempt_fails {ml : List String} {env : Env}
    (hml : (ml.all fun x =>
      match lookupA env x with
      | some d => mapLike ml d
      | none => false) = true)
    {dj di : Desc} {g : Nat} {v n p p'}
    (hd : discrimB ml env dj di = true)
    (hnodi : ∀ fi, resolveProd env di = some fi → (fi.map fext).Nodup)
    (he : encode g env di v p = .ok n) :
    ∃ e, decode g env dj n p' = .error e ∧ isRLEerr e = false := by
  unfold discrimB at hd
  rcases Bool.or_eq_true_iff.1 hd with hsc | hpr
  · rcases hdj : dj with k | s | vals | d0 | d0 | d0 | d0 | ⟨ty0, flds0⟩ | alts0 | y0 | _ <;>
      rw [hdj] at hsc
    · have hsc' : mapLike ml di = true := by simpa using hsc
      rcases mapLike_encode hml g hsc' he with ⟨es, hn⟩
      subst hn
      rcases g with _ | g'
      · simp [encode] at he
      · refine ⟨.typeMismatch p' (scalarKindName k) (nodeKindName (.map es)), ?_, rfl⟩
        exact decode_scalar_fail (scalarMatches_map_false k es)
    · simp at hsc
    · simp at hsc
    · simp at hsc
    · simp at hsc
    · simp at hsc
    · simp at hsc
    · simp at hsc
    · simp at hsc
    · simp at hsc
    · simp at hsc
  · rcases Bool.and_eq_true_iff.1 hpr with ⟨hshape, hcond⟩
    rcases hrj : resolveProd env dj with _ | fj <;>
      rcases hri : resolveProd env di with _ | fi <;>
      rw [hrj, hri] at hcond
    · simp at hcond
    · simp at hcond
    · simp at hcond
    rcases encode_resolveProd_out hri he with ⟨es, hn, hkeys, hlits, hreq⟩
    subst hn
    have hnod : (es.map Prod.fst).Nodup := ((hnodi fi hri).sublist hkeys)
    rcases List.any_eq_true.1 hcond with ⟨f0, hf0mem, hf0⟩
    have hprob : ∃ e', fieldShapeErr f0 es p' = some e' := by
      rcases Bool.or_eq_true_iff.1 hf0 with hreqmiss | hlitcl
      · rcases Bool.and_eq_true_iff.1 hreqmiss with ⟨hrq, hnotin⟩
        have hnotmem : fext f0 ∉ es.map Prod.fst := by
          intro hmem
          have hin : fext f0 ∈ fi.map fext := hkeys.subset hmem
          have hnot : fext f0 ∉ fi.map fext := by simpa using hnotin
          exact hnot hin
        refine ⟨.missingField p' (fext f0), ?_⟩
        unfold fieldShapeErr
        rw [lookupA_none_of_not_mem hnotmem, hrq]
        rfl
      · rcases hdesc : fdesc f0 with k1 | s | vals1 | d1 | d1 | d1 | d1 | ⟨ty1, flds1⟩ | alts1 | y1 | _ <;>
          rw [hdesc] at hlitcl <;>
          try simp at hlitcl
        rcases hla : litAt fi (fext f0) with _ | s' <;> rw [hla] at hlitcl
        · simp at hlitcl
        have hne : s ≠ s' := by simpa using hlitcl
        rcases litAt_elim hla with ⟨gg, hggmem, hgge, hggnd, hggd⟩
        have hmem : (fext f0, Node.str s') ∈ es := by
          rw [← hgge]
          exact hlits gg s' hggmem hggd hggnd
        have hlk : lookupA es (fext f0) = some (.str s') :=
          lookupA_some_of_mem_nodup hmem hnod
        refine ⟨.typeMismatch (pathExt p' (fext f0)) s s', ?_⟩
        unfold fieldShapeErr
        rw [hlk, hdesc]
        simp [Ne.symm hne]
    rcases hprob with ⟨e', he'⟩
    rcases checkShape_some_of_mem hf0mem he' with ⟨e, hcs⟩
    have hnr := checkShape_not_rle hcs
    rcases hdj : dj with k | s | vals | d0 | d0 | d0 | d0 | ⟨tyj, fldsj⟩ | alts0 | y | _ <;>
      rw [hdj] at hrj hshape
    · simp at hshape
    · simp at hshape
    · simp at hshape
    · simp at hshape
    · simp at hshape
    · simp at hshape
    · simp at hshape
    · have hfj : fldsj = fj := by simpa [resolveProd] using hrj
      subst hfj
      have hg1 : 1 ≤ g := encode_pos he
      rcases g with _ | g'
      · omega
      · exact ⟨e, decode_prod_fail hcs, hnr⟩
    · simp at hshape
    · have hdin : ∃ z, di = Desc.named z := by
        cases di <;> simp at hshape <;> exact ⟨_, rfl⟩
      rcases hdin with ⟨z, hz⟩
      subst hz
      have hg2 : 2 ≤ g := encode_named_min he
      rcases resolveProd_named_elim hrj with ⟨tyy, hly⟩
      exact ⟨e, decode_named_prod_fail hg2 hly hcs, hnr⟩
    · simp at hshape

theorem decAlts_ok_at {dec : Desc → Except DErr Value} :
    ∀ (alts : List Desc) (i : Nat) (a : Desc) (w : Value),
      alts[i]? = some a → dec a = .ok w →
      (∀ j b, j < i → alts[j]? = some b → ∃ e, dec b = .error e ∧ isRLEerr e = false) →
      ∀ i₀ path errs, decAlts dec alts i₀ path errs = .ok (.vvariant (i₀ + i) w) := by
  intro alts
  induction alts with
  | nil => intro i a w ha; simp at ha
  | cons b0 rest ih =>
    intro i a w ha hdec hfail i₀ path errs
    cases i with
    | zero =>
      have hb : b0 = a := by simpa using ha
      subst hb
      unfold decAlts
      rw [hdec]
      simp
    | succ i' =>
      rcases hfail 0 b0 (Nat.succ_pos i') (by simp) with ⟨e0, he0, hnr0⟩
      unfold decAlts
      simp only [he0, hnr0, Bool.false_eq_true, if_false]
      rw [show i₀ + (i' + 1) = i₀ + 1 + i' from by omega]
      exact ih i' a w (by simpa using ha) hdec
        (fun j b hj hb => hfail (j + 1) b (by omega) (by simpa using hb))
        (i₀ + 1) path (e0 :: errs)

theorem decAlts_ok_inv {dec : Desc → Except DErr Value} :
    ∀ (alts : List Desc) (i₀ : Nat) (path : String) (errs : List DErr) (u : Value),
      decAlts dec alts i₀ path errs = .ok u →
      ∃ j a w, alts[j]? = some a ∧ dec a = .ok w ∧ u = .vvariant (i₀ + j) w := by
  intro alts
  induction alts with
  | nil => intro i₀ path errs u h; simp [decAlts] at h
  | cons b0 rest ih =>
    intro i₀ path errs u h
    unfold decAlts at h
    rcases hb : dec b0 with e0 | w0 <;> simp only [hb] at h
    · rcases hr : isRLEerr e0 with _ | _ <;>
        simp only [hr, Bool.false_eq_true, if_false, if_true] at h
      · rcases ih (i₀ + 1) path (e0 :: errs) u h with ⟨j, a, w, ha, hd, hu⟩
        exact ⟨j + 1, a, w, by simpa using ha, hd,
          by rw [hu]; congr 1; omega⟩
      · exact Except.noConfusion h
    · have hu : u = .vvariant i₀ w0 := by simpa using h.symm
      exact ⟨0, b0, w0, by simp, hb, by simpa using hu⟩

theorem pairsDiscrim_spec {ml : List String} {env : Env} :
    ∀ {alts : List Desc}, pairsDiscrim ml env alts = true →
      ∀ (j i : Nat) (b a : Desc), j < i → alts[j]? = some b → alts[i]? = some a →
        discrimB ml env b a = true := by
  intro alts
  induction alts with
  | nil => intro _ j i b a _ hb; simp at hb
  | cons c rest ih =>
    intro h j i b a hji hb ha
    unfold pairsDiscrim at h
    rcases Bool.and_eq_true_iff.1 h with ⟨hall, hrest⟩
    cases j with
    | zero =>
      have hc : c = b := by simpa using hb
      subst hc
      cases i with
      | zero => omega
      | succ i' =>
        have ha' : rest[i']? = some a := by simpa using ha
        exact List.all_eq_true.1 hall a (getElem?_mem_list ha')
    | succ j' =>
      cases i with
      | zero => omega
      | succ i' =>
        exact ih hrest j' i' b a (by omega) (by simpa using hb) (by simpa using ha)

theorem envOK_parts {c : Nat} {ml nn env} (h : envOK c ml nn env = true) :
    (env.all (fun e => descOK c ml nn env e.2) = true) ∧
    ((ml.all fun x =>
      match lookupA env x with
      | some d => mapLike ml d
      | none => false) = true) ∧
    ((nn.all fun x =>
      match lookupA env x with
      | some d => nonNull nn d
      | none => false) = true) := by
  unfold envOK at h
  simp only [Bool.and_eq_true] at h
  exact ⟨h.1.1, h.1.2, h.2⟩

theorem envOK_descOK {c : Nat} {ml nn env x d} (h : envOK c ml nn env = true)
    (hl : lookupA env x = some d) : descOK c ml nn env d = true := by
  have := List.all_eq_true.1 (envOK_parts h).1 (x, d) (lookupA_mem hl)
  simpa using this

theorem encList_cons_inv {enc : Value → Except DErr Node} {v : Value}
    {vs : List Value} {ns : List Node}
    (h : encList enc (v :: vs) = .ok ns) :
    ∃ n0 tl, enc v = .ok n0 ∧ encList enc vs = .ok tl ∧ ns = n0 :: tl := by
  unfold encList at h
  rcases hv : enc v with e0 | n0 <;> rw [hv] at h
  · exact Except.noConfusion h
  · rcases ht : encList enc vs with e1 | tl <;> rw [ht] at h
    · exact Except.noConfusion h
    · exact ⟨n0, tl, rfl, rfl, by simpa using (Except.ok.inj h).symm⟩

theorem encList_decList {enc : Value → Except DErr Node}
    {dec : Node → String → Except DErr Value} :
    ∀ {vs : List Value} {ns : List Node}, encList enc vs = .ok ns →
      (∀ v n, v ∈ vs → enc v = .ok n → ∀ p', dec n p' = .ok v) →
      ∀ path i, decList dec ns path i = .ok vs := by
  intro vs
  induction vs with
  | nil =>
    intro ns h hpt path i
    have hns : ns = [] := by simpa [encList] using (Except.ok.inj h).symm
    subst hns
    rfl
  | cons v vs' ih =>
    intro ns h hpt path i
    rcases encList_cons_inv h with ⟨n0, tl, hv, ht, hns⟩
    subst hns
    unfold decList
    rw [hpt v n0 (List.mem_cons_self _ _) hv (pathExt path (toString i)),
      ih ht (fun v' n' hm he => hpt v' n' (List.mem_cons_of_mem _ hm) he) path (i + 1)]
    rfl

theorem encEntries_cons_inv {enc : Value → Except DErr Node} {k : String} {v : Value}
    {es : List (String × Value)} {nes : List (String × Node)}
    (h : encEntries enc ((k, v) :: es) = .ok nes) :
    ∃ n0 tl, enc v = .ok n0 ∧ encEntries enc es = .ok tl ∧ nes = (k, n0) :: tl := by
  unfold encEntries at h
  rcases hv : enc v with e0 | n0 <;> rw [hv] at h
  · exact Except.noConfusion h
  · rcases ht : encEntries enc es with e1 | tl <;> rw [ht] at h
    · exact Except.noConfusion h
    · exact ⟨n0, tl, rfl, rfl, by simpa using (Except.ok.inj h).symm⟩

theorem encEntries_decEntries {enc : Value → Except DErr Node}
    {dec : Node → String → Except DErr Value} :
    ∀ {evs : List (String × Value)} {nes : List (String × Node)},
      encEntries enc evs = .ok nes →
      (∀ k v n, (k, v) ∈ evs → enc v = .ok n → ∀ p', dec n p' = .ok v) →
      ∀ path, decEntries dec nes path = .ok evs := by
  intro evs
  induction evs with
  | nil =>
    intro nes h hpt path
    have hns : nes = [] := by simpa [encEntries] using (Except.ok.inj h).symm
    subst hns
    rfl
  | cons e evs' ih =>
    intro nes h hpt path
    obtain ⟨k, v⟩ := e
    rcases encEntries_cons_inv h with ⟨n0, tl, hv, ht, hns⟩
    subst hns
    unfold decEntries
    rw [hpt k v n0 (List.mem_cons_self _ _) hv (pathExt path k),
      ih ht (fun k' v' n' hm he => hpt k' v' n' (List.mem_cons_of_mem _ hm) he) path]
    rfl

theorem decList_inv {dec : Node → String → Except DErr Value} :
    ∀ {ns : List Node} {path : String} {i : Nat} {vs : List Value},
      decList dec ns path i = .ok vs →
      List.Forall₂ (fun n v => ∃ p', dec n p' = .ok v) ns vs := by
  intro ns
  induction ns with
  | nil =>
    intro path i vs h
    have : vs = [] := by simpa [decList] using (Except.ok.inj h).symm
    subst this
    exact List.Forall₂.nil
  | cons n ns' ih =>
    intro path i vs h
    unfold decList at h
    rcases hv : dec n (pathExt path (toString i)) with e0 | v0 <;> rw [hv] at h
    · exact Except.noConfusion h
    · rcases ht : decList dec ns' path (i + 1) with e1 | tl <;> rw [ht] at h
      · exact Except.noConfusion h
      · have : vs = v0 :: tl := by simpa using (Except.ok.inj h).symm
        subst this
        exact List.Forall₂.cons ⟨_, hv⟩ (ih ht)

theorem decEntries_inv {dec : Node → String → Except DErr Value} :
    ∀ {nes : List (String × Node)} {path : String} {evs : List (String × Value)},
      decEntries dec nes path = .ok evs →
      List.Forall₂ (fun e ev => e.1 = ev.1 ∧ ∃ p', dec e.2 p' = .ok ev.2) nes evs := by
  intro nes
  induction nes with
  | nil =>
    intro path evs h
    have : evs = [] := by simpa [decEntries] using (Except.ok.inj h).symm
    subst this
    exact List.Forall₂.nil
  | cons e nes' ih =>
    intro path evs h
    obtain ⟨k, n⟩ := e
    unfold decEntries at h
    rcases hv : dec n (pathExt path k) with e0 | v0 <;> rw [hv] at h
    · exact Except.noConfusion h
    · rcases ht : decEntries dec nes' path with e1 | tl <;> rw [ht] at h
      · exact Except.noConfusion h
      · have : evs = (k, v0) :: tl := by simpa using (Except.ok.inj h).symm
        subst this
        exact List.Forall₂.cons ⟨rfl, _, hv⟩ (ih ht)

theorem encList_ok_of_all {enc : Value → Except DErr Node} :
    ∀ {vs : List Value}, (∀ v ∈ vs, ∃ n, enc v = .ok n) →
      ∃ ns, encList enc vs = .ok ns := by
  intro vs
  induction vs with
  | nil => intro _; exact ⟨[], rfl⟩
  | cons v vs' ih =>
    intro h
    rcases h v (List.mem_cons_self _ _) with ⟨n0, hn⟩
    rcases ih (fun v' hm => h v' (List.mem_cons_of_mem _ hm)) with ⟨tl, ht⟩
    refine ⟨n0 :: tl, ?_⟩
    unfold encList
    rw [hn, ht]
    rfl

theorem encEntries_ok_of_all {enc : Value → Except DErr Node} :
    ∀ {evs : List (String × Value)}, (∀ k v, (k, v) ∈ evs → ∃ n, enc v = .ok n) →
      ∃ nes, encEntries enc evs = .ok nes := by
  intro evs
  induction evs with
  | nil => intro _; exact ⟨[], rfl⟩
  | cons e evs' ih =>
    intro h
    obtain ⟨k, v⟩ := e
    rcases h k v (List.mem_cons_self _ _) with ⟨n0, hn⟩
    rcases ih (fun k' v' hm => h k' v' (List.mem_cons_of_mem _ hm)) with ⟨tl, ht⟩
    refine ⟨(k, n0) :: tl, ?_⟩
    unfold encEntries
    rw [hn, ht]
    rfl

theorem descOK_prod_parts {c : Nat} {ml nn env ty flds}
    (h : descOK c ml nn env (.prodOf ty flds) = true) :
    (flds.map fext).Nodup ∧
    ∀ f ∈ flds, descOK (c - 1) ml nn env (fdesc f) = true ∧
      (∀ dv, fdef f = some dv → conformsB ckDef env (fdesc f) dv = true) := by
  cases c with
  | zero => simp [descOK] at h
  | succ c' =>
    simp only [descOK, Bool.and_eq_true] at h
    refine ⟨by simpa using h.1, ?_⟩
    intro f hm
    have := List.all_eq_true.1 h.2 f hm
    simp only [Bool.and_eq_true] at this
    refine ⟨by simpa using this.1, ?_⟩
    intro dv hdv
    have h2 := this.2
    rw [hdv] at h2
    simpa using h2

theorem resolveProd_nodup {cE c : Nat} {ml nn : List String} {env : Env} {a : Desc}
    {fi : List FieldT}
    (henv : envOK cE ml nn env = true)
    (hdesc : descOK c ml nn env a = true)
    (hr : resolveProd env a = some fi) :
    (fi.map fext).Nodup := by
  cases a with
  | prodOf ty flds =>
    have hfi : flds = fi := by simpa [resolveProd] using hr
    subst hfi
    exact (descOK_prod_parts hdesc).1
  | named x =>
    rcases resolveProd_named_elim hr with ⟨ty, hl⟩
    exact (descOK_prod_parts (envOK_descOK henv hl)).1
  | scalar k => simp [resolveProd] at hr
  | lit s => simp [resolveProd] at hr
  | enumOf vals => simp [resolveProd] at hr
  | opt d' => simp [resolveProd] at hr
  | seqOf d' => simp [resolveProd] at hr
  | setOf d' => simp [resolveProd] at hr
  | dict d' => simp [resolveProd] at hr
  | sumOf alts => simp [resolveProd] at hr
  | anyD => simp [resolveProd] at hr

theorem rt_fuel {cE : Nat} {ml nn : List String} {env : Env}
    (henv : envOK cE ml nn env = true) :
    ∀ (f : Nat) {c cc : Nat} {d : Desc} {v : Value} {n : Node} {p : String},
      descOK c ml nn env d = true → conformsB cc env d v = true →
      encode f env d v p = .ok n →
      ∀ p', decode f env d n p' = .ok v := by
  intro f
  induction f with
  | zero =>
    intro c cc d v n p hdesc hconf henc p'
    simp [encode] at henc
  | succ g ih =>
    intro c cc d v n p hdesc hconf henc p'
    cases c with
    | zero => simp [descOK] at hdesc
    | succ c' =>
    cases cc with
    | zero => simp [conformsB] at hconf
    | succ cc' =>
    cases d with
    | scalar k =>
      cases k <;> cases v <;> simp only [encode] at henc <;>
        first
        | exact Except.noConfusion henc
        | (cases henc; rfl)
    | lit s =>
      cases v <;> simp only [conformsB] at hconf <;> try exact Bool.noConfusion hconf
      case vstr s' =>
        have hs : s' = s := by simpa using hconf
        subst hs
        simp only [encode, if_pos rfl] at henc
        cases henc
        simp [decode]
    | enumOf vals =>
      cases v <;> simp only [encode] at henc <;> try exact Except.noConfusion henc
      case venum s =>
        split at henc
        · cases henc
          rename_i hcont
          have hmem : s ∈ vals := by simpa using hcont
          simp [decode, hmem]
        · exact Except.noConfusion henc
    | opt d' =>
      simp only [descOK, Bool.and_eq_true] at hdesc
      cases v <;> simp only [conformsB] at hconf <;> try exact Bool.noConfusion hconf
      case vopt o =>
        cases o with
        | none =>
          simp only [encode] at henc
          cases henc
          rfl
        | some w =>
          simp only [encode] at henc
          have hne : n ≠ Node.null :=
            nonNull_encode (envOK_parts henv).2.2 g hdesc.1 henc
          rw [decode_opt_nonnull hne, ih hdesc.2 hconf henc p']
          rfl
    | seqOf d' =>
      simp only [descOK] at hdesc
      cases v <;> simp only [conformsB] at hconf <;> try exact Bool.noConfusion hconf
      case vseq vs =>
        simp only [encode] at henc
        rcases except_map_ok_inv henc with ⟨ns, hel, hn⟩
        subst hn
        have hall := List.all_eq_true.1 hconf
        have hdl : decList (fun n' p'' => decode g env d' n' p'') ns p' 0 = .ok vs :=
          encList_decList hel
            (fun v' n' hm he'' p'' => ih hdesc (by simpa using hall v' hm) he'' p'')
            p' 0
        simp only [decode, hdl]
        rfl
    | setOf d' =>
      simp only [descOK] at hdesc
      cases v <;> simp only [conformsB] at hconf <;> try exact Bool.noConfusion hconf
      case vset vs =>
        simp only [Bool.and_eq_true] at hconf
        simp only [encode] at henc
        rcases except_map_ok_inv henc with ⟨ns, hel, hn⟩
        subst hn
        have hall := List.all_eq_true.1 hconf.1
        have hdl : decList (fun n' p'' => decode g env d' n' p'') ns p' 0 = .ok vs :=
          encList_decList hel
            (fun v' n' hm he'' p'' => ih hdesc (by simpa using hall v' hm) he'' p'')
            p' 0
        have hnodup : vs.Nodup := by simpa using hconf.2
        simp only [decode, hdl]
        show Except.ok (Value.vset vs.dedup) = Except.ok (Value.vset vs)
        rw [List.dedup_eq_self.mpr hnodup]
    | dict d' =>
      simp only [descOK] at hdesc
      cases v <;> simp only [conformsB] at hconf <;> try exact Bool.noConfusion hconf
      case vmap evs =>
        simp only [encode] at henc
        rcases except_map_ok_inv henc with ⟨nes, hee, hn⟩
        subst hn
        have hall := List.all_eq_true.1 hconf
        have hde : decEntries (fun n' p'' => decode g env d' n' p'') nes p' = .ok evs :=
          encEntries_decEntries hee
            (fun k v' n' hm he'' p'' =>
              ih hdesc (by simpa using hall (k, v') hm) he'' p'')
            p'
        simp only [decode, hde]
        rfl
    | prodOf ty flds =>
      rcases encode_prod_inv henc with ⟨fvs, es, hv, hef, hn⟩
      subst hv
      subst hn
      rcases descOK_prod_parts hdesc with ⟨hnod, hfieldok⟩
      simp only [conformsB, Bool.and_eq_true] at hconf
      have hzip := List.all_eq_true.1 hconf.2
      have hrt : checkShape flds es p' = none ∧
          decFields (fun d'' n p'' => decode g env d'' n p'') flds es p' = .ok fvs :=
        fields_rt (fun s w n' hh => encode_lit_shape hh) hef hnod
          (fun f0 id w hm n' he'' p'' => by
            have hf0 : f0 ∈ flds := (List.of_mem_zip hm).1
            have hcf : conformsB cc' env (fdesc f0) w = true := by
              have := hzip (f0, (id, w)) hm
              simp only [Bool.and_eq_true] at this
              exact this.2
            exact ih ((hfieldok f0 hf0).1) hcf he'' p'')
      simp only [decode, hrt.1, hrt.2]
      rfl
    | sumOf alts =>
      rcases encode_sum_inv henc with ⟨i, w, a, hv, ha, hea⟩
      subst hv
      simp only [descOK, Bool.and_eq_true] at hdesc
      simp only [conformsB, ha] at hconf
      have hamem : a ∈ alts := getElem?_mem_list ha
      have hdesca : descOK c' ml nn env a = true := List.all_eq_true.1 hdesc.2 a hamem
      have hdeca : decode g env a n p' = .ok w := ih hdesca hconf hea p'
      have hfails : ∀ j b, j < i → alts[j]? = some b →
          ∃ e, decode g env b n p' = .error e ∧ isRLEerr e = false := by
        intro j b hj hb
        have hdis := pairsDiscrim_spec hdesc.1 j i b a hj hb ha
        exact dec_attempt_fails (envOK_parts henv).2.1 hdis
          (fun fi hri => resolveProd_nodup henv hdesca hri) hea
      have hda := decAlts_ok_at alts i a w ha hdeca hfails 0 p' []
      simp only [Nat.zero_add] at hda
      simp only [decode, hda]
    | named x =>
      rcases encode_named_inv henc with ⟨d', hl, he'⟩
      simp only [conformsB, hl] at hconf
      have hd' : descOK cE ml nn env d' = true := envOK_descOK henv hl
      have := ih hd' hconf he' p'
      simp only [decode, hl]
      exact this
    | anyD =>
      cases v <;> simp only [encode] at henc <;> try exact Except.noConfusion henc
      case vany nd =>
        cases henc
        rfl

theorem conformsB_mono : ∀ (c : Nat) {c' : Nat} {env : Env} {d : Desc} {v : Value},
    c ≤ c' → conformsB c env d v = true → conformsB c' env d v = true := by
  intro c
  induction c with
  | zero => intro c' env d v _ h; simp [conformsB] at h
  | succ c0 ih =>
    intro c' env d v hle h
    cases c' with
    | zero => omega
    | succ c1 =>
    have hle' : c0 ≤ c1 := by omega
    cases d with
    | scalar k => cases k <;> cases v <;> simpa [conformsB] using h
    | lit s => cases v <;> simpa [conformsB] using h
    | enumOf vals => cases v <;> simpa [conformsB] using h
    | anyD => cases v <;> simpa [conformsB] using h
    | opt d' =>
      cases v <;> try simpa [conformsB] using h
      case vopt o =>
        cases o with
        | none => simp [conformsB]
        | some w =>
          simp only [conformsB] at h ⊢
          exact ih hle' h
    | seqOf d' =>
      cases v <;> try simpa [conformsB] using h
      case vseq vs =>
        simp only [conformsB] at h ⊢
        refine List.all_eq_true.2 ?_
        intro w hw
        exact ih hle' (List.all_eq_true.1 h w hw)
    | setOf d' =>
      cases v <;> try simpa [conformsB] using h
      case vset vs =>
        simp only [conformsB, Bool.and_eq_true] at h ⊢
        refine ⟨List.all_eq_true.2 ?_, h.2⟩
        intro w hw
        exact ih hle' (List.all_eq_true.1 h.1 w hw)
    | dict d' =>
      cases v <;> try simpa [conformsB] using h
      case vmap evs =>
        simp only [conformsB] at h ⊢
        refine List.all_eq_true.2 ?_
        intro e he
        exact ih hle' (List.all_eq_true.1 h e he)
    | prodOf ty flds =>
      cases v <;> try simpa [conformsB] using h
      case vprod ty' fvs =>
        simp only [conformsB, Bool.and_eq_true] at h ⊢
        refine ⟨h.1, List.all_eq_true.2 ?_⟩
        intro e he
        have := List.all_eq_true.1 h.2 e he
        simp only [Bool.and_eq_true] at this ⊢
        exact ⟨this.1, ih hle' this.2⟩
    | sumOf alts =>
      cases v <;> try simpa [conformsB] using h
      case vvariant i w =>
        simp only [conformsB] at h ⊢
        rcases ha : alts[i]? with _ | a <;> rw [ha] at h
        · simp at h
        · have h' : conformsB c0 env a w = true := by simpa using h
          simpa using ih hle' h'
    | named x =>
      simp only [conformsB] at h ⊢
      rcases hl : lookupA env x with _ | d' <;> rw [hl] at h
      · simp at h
      · have h' : conformsB c0 env d' v = true := by simpa using h
        simpa using ih hle' h'

theorem ckDef_pos : 1 ≤ ckDef := by decide

theorem conformsB_vopt_none {c : Nat} {env : Env} {d : Desc} (h : 1 ≤ c) :
    conformsB c env (.opt d) (.vopt none) = true := by
  cases c with
  | zero => omega
  | succ c' => simp [conformsB]

theorem forall₂_mem_right {α β : Type} {R : α → β → Prop} :
    ∀ {l1 : List α} {l2 : List β}, List.Forall₂ R l1 l2 →
      ∀ b ∈ l2, ∃ a ∈ l1, R a b := by
  intro l1
  induction l1 with
  | nil =>
    intro l2 h b hb
    cases h
    simp at hb
  | cons a l1' ih =>
    intro l2 h b hb
    cases h with
    | cons hr ht =>
      rcases List.mem_cons.1 hb with hh | hh
      · subst hh
        exact ⟨a, List.mem_cons_self _ _, hr⟩
      · rcases ih ht b hh with ⟨a', ha', hra⟩
        exact ⟨a', List.mem_cons_of_mem _ ha', hra⟩

theorem forall₂_zip {α β : Type} {R : α → β → Prop} :
    ∀ {l1 : List α} {l2 : List β}, List.Forall₂ R l1 l2 →
      ∀ a b, (a, b) ∈ l1.zip l2 → R a b := by
  intro l1
  induction l1 with
  | nil =>
    intro l2 h a b hab
    cases h
    simp at hab
  | cons x l1' ih =>
    intro l2 h a b hab
    cases h with
    | cons hr ht =>
      rename_i y l2'
      simp only [List.zip_cons_cons, List.mem_cons, Prod.mk.injEq] at hab
      rcases hab with ⟨h1, h2⟩ | hh
      · subst h1; subst h2
        exact hr
      · exact ih ht a b hh

theorem sublist_all {α : Type} {p : α → Bool} {l1 l2 : List α}
    (hs : List.Sublist l1 l2) (h : l2.all p = true) : l1.all p = true := by
  refine List.all_eq_true.2 ?_
  intro a ha
  exact List.all_eq_true.1 h a (hs.subset ha)

theorem decFields_inv {dec : Desc → Node → String → Except DErr Value} :
    ∀ {flds : List FieldT} {es : List (String × Node)} {p : String}
      {fvs : List (String × Value)},
      decFields dec flds es p = .ok fvs →
      List.Forall₂ (fun f (idw : String × Value) =>
        idw.1 = fid f ∧
        ((∃ n, lookupA es (fext f) = some n ∧
           ∃ p'', dec (fdesc f) n p'' = .ok idw.2)
         ∨ (lookupA es (fext f) = none ∧ fdef f = some idw.2)
         ∨ (lookupA es (fext f) = none ∧ fdef f = none ∧
            isOptD (fdesc f) = true ∧ idw.2 = .vopt none))) flds fvs := by
  intro flds
  induction flds with
  | nil =>
    intro es p fvs h
    have : fvs = [] := by simpa [decFields] using (Except.ok.inj h).symm
    subst this
    exact List.Forall₂.nil
  | cons f rest ih =>
    intro es p fvs h
    unfold decFields at h
    rcases hl : lookupA es (fext f) with _ | n0 <;> simp only [hl] at h
    · rcases hd : fdef f with _ | dv <;> simp only [hd] at h
      · split at h
        · rename_i ho
          rcases ht : decFields dec rest es p with e1 | tl <;> rw [ht] at h
          · exact Except.noConfusion h
          · have : fvs = (fid f, Value.vopt none) :: tl := by simpa using (Except.ok.inj h).symm
            subst this
            exact List.Forall₂.cons ⟨rfl, Or.inr (Or.inr ⟨hl, hd, ho, rfl⟩)⟩ (ih ht)
        · exact Except.noConfusion h
      · rcases ht : decFields dec rest es p with e1 | tl <;> rw [ht] at h
        · exact Except.noConfusion h
        · have : fvs = (fid f, dv) :: tl := by simpa using (Except.ok.inj h).symm
          subst this
          exact List.Forall₂.cons ⟨rfl, Or.inr (Or.inl ⟨hl, hd⟩)⟩ (ih ht)
    · rcases hv : dec (fdesc f) n0 (pathExt p (fext f)) with e0 | w0 <;> rw [hv] at h
      · exact Except.noConfusion h
      · rcases ht : decFields dec rest es p with e1 | tl <;> rw [ht] at h
        · exact Except.noConfusion h
        · have : fvs = (fid f, w0) :: tl := by simpa using (Except.ok.inj h).symm
          subst this
          exact List.Forall₂.cons ⟨rfl, Or.inl ⟨n0, hl, _, hv⟩⟩ (ih ht)

theorem scalarDecode_conforms {k : Kind} {n : Node} {p : String} {v : Value}
    {c : Nat} {env : Env} (h : scalarDecode k n p = .ok v) :
    conformsB (c + 1) env (.scalar k) v = true := by
  cases k <;> cases n <;> simp [scalarDecode] at h <;> subst h <;> rfl

theorem conformsB_opt_none {c : Nat} {env : Env} {d' : Desc} :
    conformsB (c + 1) env (.opt d') (.vopt none) = true := rfl

theorem conformsB_opt_some {c : Nat} {env : Env} {d' : Desc} {w : Value} :
    conformsB (c + 1) env (.opt d') (.vopt (some w)) = conformsB c env d' w := rfl

theorem conformsB_lit {c : Nat} {env : Env} {s s' : String} :
    conformsB (c + 1) env (.lit s) (.vstr s') = (s' == s) := rfl

theorem conformsB_enum {c : Nat} {env : Env} {vals : List String} {s : String} :
    conformsB (c + 1) env (.enumOf vals) (.venum s) = vals.contains s := rfl

theorem conformsB_seq {c : Nat} {env : Env} {d' : Desc} {vs : List Value} :
    conformsB (c + 1) env (.seqOf d') (.vseq vs) =
      vs.all (fun w => conformsB c env d' w) := rfl

theorem conformsB_set {c : Nat} {env : Env} {d' : Desc} {vs : List Value} :
    conformsB (c + 1) env (.setOf d') (.vset vs) =
      (vs.all (fun w => conformsB c env d' w) && decide vs.Nodup) := rfl

theorem conformsB_dict {c : Nat} {env : Env} {d' : Desc} {es : List (String × Value)} :
    conformsB (c + 1) env (.dict d') (.vmap es) =
      es.all (fun e => conformsB c env d' e.2) := rfl

theorem conformsB_prod {c : Nat} {env : Env} {ty ty' : String} {flds : List FieldT}
    {fvs : List (String × Value)} :
    conformsB (c + 1) env (.prodOf ty flds) (.vprod ty' fvs) =
      (ty' == ty && flds.length == fvs.length &&
       (flds.zip fvs).all (fun e => e.2.1 == fid e.1 && conformsB c env (fdesc e.1) e.2.2)) := rfl

theorem conformsB_sum {c : Nat} {env : Env} {alts : List Desc} {i : Nat} {w : Value} :
    conformsB (c + 1) env (.sumOf alts) (.vvariant i w) =
      (match alts[i]? with
       | some a => conformsB c env a w
       | none => false) := rfl

theorem conformsB_named {c : Nat} {env : Env} {x : String} {w : Value} :
    conformsB (c + 1) env (.named x) w =
      (match lookupA env x with
       | some d' => conformsB c env d' w
       | none => false) := rfl

theorem conformsB_any {c : Nat} {env : Env} {n : Node} :
    conformsB (c + 1) env .anyD (.vany n) = true := rfl

/-- Every value produced by `decode` conforms to the descriptor it was
decoded against, with conformance fuel `f + ckDef`. -/
theorem decode_conforms {cE : Nat} {ml nn : List String} {env : Env}
    (henv : envOK cE ml nn env = true) :
    ∀ (f : Nat) {c : Nat} {d : Desc} {n : Node} {p : String} {v : Value},
      descOK c ml nn env d = true →
      decode f env d n p = .ok v →
      conformsB (f + ckDef) env d v = true := by
  intro f
  induction f with
  | zero => intro c d n p v _ h; simp [decode] at h
  | succ g ih =>
    intro c d n p v hdesc h
    rw [Nat.add_right_comm g 1 ckDef]
    cases c with
    | zero => simp [descOK] at hdesc
    | succ c' =>
    cases d with
    | scalar k =>
      have h' : scalarDecode k n p = .ok v := h
      exact scalarDecode_conforms h'
    | lit s =>
      cases n <;> try exact Except.noConfusion h
      rename_i s'
      have h' : (if s' = s then Except.ok (Value.vstr s)
                 else Except.error (DErr.typeMismatch p s s')) = Except.ok v := h
      split at h'
      · have hv : v = Value.vstr s := by simpa using (Except.ok.inj h').symm
        subst hv
        rw [conformsB_lit]
        simp
      · exact Except.noConfusion h'
    | enumOf vals =>
      cases n <;> try exact Except.noConfusion h
      rename_i s
      have h' : (if vals.contains s then Except.ok (Value.venum s)
                 else Except.error
                   (DErr.typeMismatch p (String.intercalate "|" vals) s)) = Except.ok v := h
      split at h'
      · rename_i hmem
        have hv : v = Value.venum s := by simpa using (Except.ok.inj h').symm
        subst hv
        rw [conformsB_enum]
        exact hmem
      · exact Except.noConfusion h'
    | opt d' =>
      have hd' : descOK c' ml nn env d' = true := by
        simp only [descOK, Bool.and_eq_true] at hdesc
        exact hdesc.2
      cases hn0 : n with
      | null =>
        subst hn0
        have hv : v = Value.vopt none := by simpa using (Except.ok.inj h).symm
        subst hv
        exact conformsB_opt_none
      | _ =>
        subst hn0
        rw [decode_opt_nonnull (by simp)] at h
        rcases except_map_ok_inv h with ⟨w, hw, hv⟩
        subst hv
        rw [conformsB_opt_some]
        exact ih hd' hw
    | seqOf d' =>
      have hd' : descOK c' ml nn env d' = true := by simpa [descOK] using hdesc
      cases n <;> try exact Except.noConfusion h
      rename_i ns
      have h' : (decList (fun n p => decode g env d' n p) ns p 0).map Value.vseq
          = Except.ok v := h
      rcases except_map_ok_inv h' with ⟨vs, hvs, hv⟩
      subst hv
      have hfa := decList_inv hvs
      rw [conformsB_seq]
      refine List.all_eq_true.2 ?_
      intro w hw
      rcases forall₂_mem_right hfa w hw with ⟨n', _, p', hdec⟩
      exact ih hd' hdec
    | setOf d' =>
      have hd' : descOK c' ml nn env d' = true := by simpa [descOK] using hdesc
      cases n <;> try exact Except.noConfusion h
      rename_i ns
      have h' : (decList (fun n p => decode g env d' n p) ns p 0).map
          (fun vs => Value.vset vs.dedup) = Except.ok v := h
      rcases except_map_ok_inv h' with ⟨vs, hvs, hv⟩
      subst hv
      have hfa := decList_inv hvs
      rw [conformsB_set]
      simp only [Bool.and_eq_true]
      refine ⟨?_, by simp [List.nodup_dedup]⟩
      refine sublist_all (List.dedup_sublist vs) (List.all_eq_true.2 ?_)
      intro w hw
      rcases forall₂_mem_right hfa w hw with ⟨n', _, p', hdec⟩
      exact ih hd' hdec
    | dict d' =>
      have hd' : descOK c' ml nn env d' = true := by simpa [descOK] using hdesc
      cases n <;> try exact Except.noConfusion h
      rename_i es
      have h' : (decEntries (fun n p => decode g env d' n p) es p).map Value.vmap
          = Except.ok v := h
      rcases except_map_ok_inv h' with ⟨evs, hevs, hv⟩
      subst hv
      have hfa := decEntries_inv hevs
      rw [conformsB_dict]
      refine List.all_eq_true.2 ?_
      intro ev hev
      rcases forall₂_mem_right hfa ev hev with ⟨e', _, _, p', hdec⟩
      exact ih hd' hdec
    | prodOf ty flds =>
      rcases descOK_prod_parts hdesc with ⟨hnod, hflds⟩
      cases n <;> try exact Except.noConfusion h
      rename_i es
      have h' : (match checkShape flds es p with
                 | some e => Except.error e
                 | none =>
                   (decFields (fun d'' n p => decode g env d'' n p) flds es p).map
                     (Value.vprod ty)) = Except.ok v := h
      split at h'
      · exact Except.noConfusion h'
      · rcases except_map_ok_inv h' with ⟨fvs, hfvs, hv⟩
        subst hv
        have hfa := decFields_inv hfvs
        rw [conformsB_prod]
        simp only [Bool.and_eq_true]
        refine ⟨⟨by simp, by simp [hfa.length_eq]⟩, ?_⟩
        refine List.all_eq_true.2 ?_
        intro e he
        rcases e with ⟨f0, id0, w0⟩
        have hmem : f0 ∈ flds := (List.of_mem_zip he).1
        rcases forall₂_zip hfa f0 (id0, w0) he with ⟨hid, hrest⟩
        show (id0 == fid f0 && conformsB (g + ckDef) env (fdesc f0) w0) = true
        simp only [Bool.and_eq_true]
        refine ⟨by simpa using hid, ?_⟩
        rcases hflds f0 hmem with ⟨hfd, hdef⟩
        rcases hrest with ⟨n0, _, p'', hdec⟩ | ⟨_, hd0⟩ | ⟨_, _, hopt, hw0⟩
        · exact ih hfd hdec
        · exact conformsB_mono ckDef (Nat.le_add_left _ _) (hdef w0 hd0)
        · subst hw0
          cases hfd0 : fdesc f0 <;> rw [hfd0] at hopt <;> simp [isOptD] at hopt
          refine conformsB_vopt_none ?_
          have := ckDef_pos
          omega
    | sumOf alts =>
      have hall : ∀ a ∈ alts, descOK c' ml nn env a = true := by
        simp only [descOK, Bool.and_eq_true] at hdesc
        intro a ha
        exact List.all_eq_true.1 hdesc.2 a ha
      have h' : decAlts (fun d'' => decode g env d'' n p) alts 0 p [] = Except.ok v := h
      rcases decAlts_ok_inv alts 0 p [] v h' with ⟨j, a, w, hja, hdec, hv⟩
      subst hv
      have ha : descOK c' ml nn env a = true := hall a (getElem?_mem_list hja)
      rw [conformsB_sum]
      simp only [Nat.zero_add, hja]
      exact ih ha hdec
    | named x =>
      have h' : (match lookupA env x with
                 | some d' => decode g env d' n p
                 | none => Except.error (.invalidDescriptor p x)) = Except.ok v := h
      split at h'
      · rename_i d' hl
        have hd' : descOK cE ml nn env d' = true := envOK_descOK henv hl
        rw [conformsB_named]
        rw [hl]
        exact ih hd' h'
      · exact Except.noConfusion h'
    | anyD =>
      have hv : v = Value.vany n := by simpa using (Except.ok.inj h).symm
      subst hv
      exact conformsB_any

theorem forall₂_imp_mem {α β : Type} {R S : α → β → Prop} :
    ∀ {l1 : List α} {l2 : List β}, List.Forall₂ R l1 l2 →
      (∀ a ∈ l1, ∀ b, R a b → S a b) → List.Forall₂ S l1 l2 := by
  intro l1
  induction l1 with
  | nil =>
    intro l2 h _
    cases h
    exact List.Forall₂.nil
  | cons a l1' ih =>
    intro l2 h himp
    cases h with
    | cons hr ht =>
      refine List.Forall₂.cons (himp a (List.mem_cons_self _ _) _ hr) ?_
      exact ih ht (fun a' ha' b hb => himp a' (List.mem_cons_of_mem _ ha') b hb)

theorem encFields_cons_eq {enc : Desc → Value → Except DErr Node} {f : FieldT}
    {rest : List FieldT} {ident : String} {v : Value} {fvs : List (String × Value)}
    {p : String} :
    encFields enc (f :: rest) ((ident, v) :: fvs) p =
      (if ident = fid f then
        (if skipB f v then encFields enc rest fvs p
         else do
           let n ← enc (fdesc f) v
           let tl ← encFields enc rest fvs p
           Except.ok ((fext f, n) :: tl))
       else .error (.encodeFailure p)) := rfl

theorem encFields_ok_of_pointwise {enc : Desc → Value → Except DErr Node} :
    ∀ {flds : List FieldT} {fvs : List (String × Value)} {p : String},
      List.Forall₂ (fun f (idw : String × Value) =>
        idw.1 = fid f ∧
        (skipB f idw.2 = true ∨ ∃ n', enc (fdesc f) idw.2 = .ok n')) flds fvs →
      ∃ es, encFields enc flds fvs p = .ok es := by
  intro flds
  induction flds with
  | nil =>
    intro fvs p h
    cases h
    exact ⟨[], rfl⟩
  | cons f rest ih =>
    intro fvs p h
    cases h with
    | cons hr ht =>
      rename_i idw fvs'
      rcases idw with ⟨id0, w0⟩
      rcases hr with ⟨hid, hrest⟩
      have hid' : id0 = fid f := hid
      subst hid'
      rcases ih (p := p) ht with ⟨tl, htl⟩
      rw [encFields_cons_eq, if_pos rfl]
      by_cases hsk : skipB f w0 = true
      · rw [if_pos hsk]
        exact ⟨tl, htl⟩
      · rw [if_neg hsk]
        rcases hrest with hskip | ⟨n', hn'⟩
        · exact absurd hskip hsk
        · refine ⟨(fext f, n') :: tl, ?_⟩
          rw [hn', htl]
          rfl

theorem encode_seq_eq {g : Nat} {env : Env} {d' : Desc} {vs : List Value} {p : String} :
    encode (g + 1) env (.seqOf d') (.vseq vs) p =
      (encList (fun w => encode g env d' w p) vs).map Node.arr := rfl

theorem encode_set_eq {g : Nat} {env : Env} {d' : Desc} {vs : List Value} {p : String} :
    encode (g + 1) env (.setOf d') (.vset vs) p =
      (encList (fun w => encode g env d' w p) vs).map Node.arr := rfl

theorem encode_dict_eq {g : Nat} {env : Env} {d' : Desc} {es : List (String × Value)}
    {p : String} :
    encode (g + 1) env (.dict d') (.vmap es) p =
      (encEntries (fun w => encode g env d' w p) es).map Node.map := rfl

theorem encode_prod_eq {g : Nat} {env : Env} {ty ty' : String} {flds : List FieldT}
    {fvs : List (String × Value)} {p : String} :
    encode (g + 1) env (.prodOf ty flds) (.vprod ty' fvs) p =
      (if ty' = ty then
        (encFields (fun d'' w => encode g env d'' w p) flds fvs p).map Node.map
       else .error (.encodeFailure p)) := rfl

theorem encode_sum_eq {g : Nat} {env : Env} {alts : List Desc} {i : Nat} {w : Value}
    {p : String} :
    encode (g + 1) env (.sumOf alts) (.vvariant i w) p =
      (match alts[i]? with
       | some a => encode g env a w p
       | none => .error (.encodeFailure p)) := rfl

theorem encode_named_eq {g : Nat} {env : Env} {x : String} {w : Value} {p : String} :
    encode (g + 1) env (.named x) w p =
      (match lookupA env x with
       | some d' => encode g env d' w p
       | none => .error (.invalidDescriptor p x)) := rfl

/-- Every value produced by `decode` can be re-encoded: `encode` succeeds on
it at the same fuel (spec section 7, "Encode is total for any value produced
by this engine's own Decoder", up to the depth guard). -/
theorem dec_then_enc {cE : Nat} {ml nn : List String} {env : Env}
    (henv : envOK cE ml nn env = true) :
    ∀ (f : Nat) {c : Nat} {d : Desc} {n : Node} {p : String} {v : Value} {q : String},
      descOK c ml nn env d = true →
      decode f env d n p = .ok v →
      ∃ n', encode f env d v q = .ok n' := by
  intro f
  induction f with
  | zero => intro c d n p v q _ h; simp [decode] at h
  | succ g ih =>
    intro c d n p v q hdesc h
    cases c with
    | zero => simp [descOK] at hdesc
    | succ c' =>
    cases d with
    | scalar k =>
      have h' : scalarDecode k n p = .ok v := h
      cases k <;> cases n <;> simp [scalarDecode] at h' <;> subst h' <;> exact ⟨_, rfl⟩
    | lit s =>
      cases n <;> try exact Except.noConfusion h
      rename_i s'
      have h' : (if s' = s then Except.ok (Value.vstr s)
                 else Except.error (DErr.typeMismatch p s s')) = Except.ok v := h
      split at h'
      · have hv : v = Value.vstr s := by simpa using (Except.ok.inj h').symm
        subst hv
        exact ⟨.str s, by simp [encode]⟩
      · exact Except.noConfusion h'
    | enumOf vals =>
      cases n <;> try exact Except.noConfusion h
      rename_i s
      have h' : (if vals.contains s then Except.ok (Value.venum s)
                 else Except.error
                   (DErr.typeMismatch p (String.intercalate "|" vals) s)) = Except.ok v := h
      split at h'
      · rename_i hmem
        have hv : v = Value.venum s := by simpa using (Except.ok.inj h').symm
        subst hv
        have hm : s ∈ vals := by simpa using hmem
        exact ⟨.str s, by simp [encode, hm]⟩
      · exact Except.noConfusion h'
    | opt d' =>
      have hd' : descOK c' ml nn env d' = true := by
        simp only [descOK, Bool.and_eq_true] at hdesc
        exact hdesc.2
      cases hn0 : n with
      | null =>
        subst hn0
        have hv : v = Value.vopt none := by simpa using (Except.ok.inj h).symm
        subst hv
        exact ⟨.null, rfl⟩
      | _ =>
        subst hn0
        rw [decode_opt_nonnull (by simp)] at h
        rcases except_map_ok_inv h with ⟨w, hw, hv⟩
        subst hv
        rcases ih (q := q) hd' hw with ⟨n', hn'⟩
        exact ⟨n', hn'⟩
    | seqOf d' =>
      have hd' : descOK c' ml nn env d' = true := by simpa [descOK] using hdesc
      cases n <;> try exact Except.noConfusion h
      rename_i ns
      have h' : (decList (fun n p => decode g env d' n p) ns p 0).map Value.vseq
          = Except.ok v := h
      rcases except_map_ok_inv h' with ⟨vs, hvs, hv⟩
      subst hv
      have hfa := decList_inv hvs
      have hall : ∀ w ∈ vs, ∃ m, encode g env d' w q = .ok m := by
        intro w hw
        rcases forall₂_mem_right hfa w hw with ⟨n', _, p', hdec⟩
        exact ih hd' hdec
      rcases encList_ok_of_all hall with ⟨ns', hns'⟩
      refine ⟨.arr ns', ?_⟩
      rw [encode_seq_eq, hns']
      rfl
    | setOf d' =>
      have hd' : descOK c' ml nn env d' = true := by simpa [descOK] using hdesc
      cases n <;> try exact Except.noConfusion h
      rename_i ns
      have h' : (decList (fun n p => decode g env d' n p) ns p 0).map
          (fun vs => Value.vset vs.dedup) = Except.ok v := h
      rcases except_map_ok_inv h' with ⟨vs, hvs, hv⟩
      subst hv
      have hfa := decList_inv hvs
      have hall : ∀ w ∈ vs.dedup, ∃ m, encode g env d' w q = .ok m := by
        intro w hw
        rcases forall₂_mem_right hfa w (List.mem_dedup.1 hw) with ⟨n', _, p', hdec⟩
        exact ih hd' hdec
      rcases encList_ok_of_all hall with ⟨ns', hns'⟩
      refine ⟨.arr ns', ?_⟩
      rw [encode_set_eq, hns']
      rfl
    | dict d' =>
      have hd' : descOK c' ml nn env d' = true := by simpa [descOK] using hdesc
      cases n <;> try exact Except.noConfusion h
      rename_i es
      have h' : (decEntries (fun n p => decode g env d' n p) es p).map Value.vmap
          = Except.ok v := h
      rcases except_map_ok_inv h' with ⟨evs, hevs, hv⟩
      subst hv
      have hfa := decEntries_inv hevs
      have hall : ∀ k w, (k, w) ∈ evs → ∃ m, encode g env d' w q = .ok m := by
        intro k w hw
        rcases forall₂_mem_right hfa (k, w) hw with ⟨e', _, _, p', hdec⟩
        exact ih hd' hdec
      rcases encEntries_ok_of_all hall with ⟨nes, hnes⟩
      refine ⟨.map nes, ?_⟩
      rw [encode_dict_eq, hnes]
      rfl
    | prodOf ty flds =>
      rcases descOK_prod_parts hdesc with ⟨hnod, hflds⟩
      cases n <;> try exact Except.noConfusion h
      rename_i es
      have h' : (match checkShape flds es p with
                 | some e => Except.error e
                 | none =>
                   (decFields (fun d'' n p => decode g env d'' n p) flds es p).map
                     (Value.vprod ty)) = Except.ok v := h
      split at h'
      · exact Except.noConfusion h'
      · rcases except_map_ok_inv h' with ⟨fvs, hfvs, hv⟩
        subst hv
        have hfa := decFields_inv hfvs
        have hpt : List.Forall₂ (fun f (idw : String × Value) =>
            idw.1 = fid f ∧
            (skipB f idw.2 = true ∨
             ∃ n', encode g env (fdesc f) idw.2 q = .ok n')) flds fvs := by
          refine forall₂_imp_mem hfa ?_
          intro f0 hf0 idw hP
          rcases hP with ⟨hid, hrest⟩
          refine ⟨hid, ?_⟩
          rcases hrest with ⟨n0, _, p'', hdec⟩ | ⟨_, hd0⟩ | ⟨_, hdn, hopt, hw⟩
          · exact Or.inr (ih (hflds f0 hf0).1 hdec)
          · exact Or.inl (by simp [skipB, hd0])
          · exact Or.inl (by simp [skipB, hdn, hopt, hw])
        rcases @encFields_ok_of_pointwise (fun d'' w => encode g env d'' w q) flds fvs q hpt with ⟨es', hes'⟩
        refine ⟨.map es', ?_⟩
        rw [encode_prod_eq, if_pos rfl, hes']
        rfl
    | sumOf alts =>
      have hall : ∀ a ∈ alts, descOK c' ml nn env a = true := by
        simp only [descOK, Bool.and_eq_true] at hdesc
        intro a ha
        exact List.all_eq_true.1 hdesc.2 a ha
      have h' : decAlts (fun d'' => decode g env d'' n p) alts 0 p [] = Except.ok v := h
      rcases decAlts_ok_inv alts 0 p [] v h' with ⟨j, a, w, hja, hdec, hv⟩
      subst hv
      have ha : descOK c' ml nn env a = true := hall a (getElem?_mem_list hja)
      rcases ih (q := q) ha hdec with ⟨n', hn'⟩
      refine ⟨n', ?_⟩
      rw [encode_sum_eq]
      simp only [Nat.zero_add, hja]
      exact hn'
    | named x =>
      have h' : (match lookupA env x with
                 | some d' => decode g env d' n p
                 | none => Except.error (.invalidDescriptor p x)) = Except.ok v := h
      split at h'
      · rename_i d' hl
        have hd' : descOK cE ml nn env d' = true := envOK_descOK henv hl
        rcases ih (q := q) hd' h' with ⟨n', hn'⟩
        refine ⟨n', ?_⟩
        rw [encode_named_eq, hl]
        exact hn'
      · exact Except.noConfusion h'
    | anyD =>
      have hv : v = Value.vany n := by simpa using (Except.ok.inj h).symm
      subst hv
      exact ⟨n, rfl⟩

/-- The concrete environment of the source's data model is well-formed:
every descriptor checks out, and the map-like and non-null whitelists are
correct. -/
theorem specEnv_ok : envOK 16 mlNames nnNames specEnv = true := by decide

theorem rootDesc_ok : descOK 1 mlNames nnNames specEnv rootDesc = true := by decide

theorem decFields_first_err {dec : Desc → Node → String → Except DErr Value}
    {f : FieldT} {rest : List FieldT} {es : List (String × Node)} {p : String}
    {n : Node} {e : DErr}
    (hl : lookupA es (fext f) = some n)
    (hd : dec (fdesc f) n (pathExt p (fext f)) = .error e) :
    decFields dec (f :: rest) es p = .error e := by
  unfold decFields
  simp only [hl]
  rw [hd]
  rfl

/-- A node that is not one of the four admissible version strings fails
against the `SpecFormat` enumeration descriptor. -/
theorem decode_specformat_fail {g : Nat} {nd : Node} {p : String}
    (h : specFormatOK nd = false) :
    ∃ e, decode (g + 1) specEnv (.enumOf ["3.0.0", "3.0.1", "3.0.2", "3.0.3"]) nd p
      = .error e := by
  cases nd with
  | str s =>
    have hc : (["3.0.0", "3.0.1", "3.0.2", "3.0.3"] : List String).contains s = false := h
    refine ⟨.typeMismatch p (String.intercalate "|" ["3.0.0", "3.0.1", "3.0.2", "3.0.3"]) s, ?_⟩
    have hstep : decode (g + 1) specEnv (.enumOf ["3.0.0", "3.0.1", "3.0.2", "3.0.3"]) (.str s) p
        = (if (["3.0.0", "3.0.1", "3.0.2", "3.0.3"] : List String).contains s then
             Except.ok (Value.venum s)
           else Except.error (.typeMismatch p
             (String.intercalate "|" ["3.0.0", "3.0.1", "3.0.2", "3.0.3"]) s)) := rfl
    rw [hstep, hc]
    rfl
  | null => exact ⟨_, rfl⟩
  | bool b => exact ⟨_, rfl⟩
  | int m => exact ⟨_, rfl⟩
  | float q => exact ⟨_, rfl⟩
  | arr l => exact ⟨_, rfl⟩
  | map es => exact ⟨_, rfl⟩

/-- C1 (amended).  The spec's unconditional round-trip claim fails at the
depth guard; what holds is: for every value of the root type constructible
from its descriptor whose encoding succeeds, decoding the encoding yields
the value back, including when fields equal to their declared defaults are
omitted. -/
theorem C1_round_trip (c : Nat) (v : Value) (n : Node)
    (hconf : conformsB c specEnv rootDesc v = true)
    (henc : serialize_spec v = .ok n) :
    parse_spec n = .ok v :=
  rt_fuel specEnv_ok recursionLimit rootDesc_ok hconf henc ""

/-- C1 witness: the end-to-end example value round-trips through its
encoding. -/
theorem C1_round_trip_witness :
    conformsB 40 specEnv rootDesc valC4 = true ∧ serialize_spec valC4 = .ok docC4 ∧
      parse_spec docC4 = .ok valC4 :=
  ⟨rfl, rfl, C1_round_trip 40 valC4 docC4 rfl rfl⟩

set_option maxRecDepth 8000 in
/-- C1 counterexample: a value of the root type constructible from its
descriptor (a schema nested 100 levels) whose encoding is the depth-guard
error, so `parse_spec (serialize_spec x) == x` has no unconditional
reading: `serialize_spec x` is not a document at all. -/
theorem C1_round_trip_counterexample :
    conformsB 512 specEnv rootDesc (valDeep 100) = true ∧
      rleN (serialize_spec (valDeep 100)) = true :=
  ⟨rfl, rfl⟩

/-- C2: variant order is decisive.  Decoding the reference-shaped node
against a sum whose first alternative is `Reference` yields the
`Reference` variant (index 0) regardless of the second alternative, which
is never reached: the result is the same for every `d2`. -/
theorem C2_variant_order (d2 : Desc) (g : Nat) (p : String) :
    decode (g + 4) specEnv (.sumOf [.named "Reference", d2]) refNodeC2 p =
      .ok (.vvariant 0 refValC2) := rfl

/-- C3: override correctness.  Decoding a mapping with key `"in"` into an
`OperationParameter` populates the `in_` field from it; encoding emits the
external key `"in"` (the encoded node's keys all come from the declared
external names, so `"in_"` is never emitted); and the override registry
maps `(OperationParameter, in_)` to `"in"` and the `ref` fields of
`Reference` and `PathItem` to `"$ref"`. -/
theorem C3_overrides :
    (decode recursionLimit specEnv (.named "OperationParameter") paramNodeC3 ""
       = .ok paramValC3)
    ∧ (encode recursionLimit specEnv (.named "OperationParameter") paramValC3 ""
       = .ok (.map [("name", .str "id"), ("in", .str "query"),
                    ("schema", .map [("type", .str "string")])]))
    ∧ (∀ (g : Nat) (v : Value) (n : Node) (p : String),
        encode (g + 2) specEnv (.named "OperationParameter") v p = .ok n →
        ∃ es, n = .map es ∧ ∀ k m, (k, m) ∈ es →
          k ∈ ["name", "in", "schema", "required", "description", "style", "explode"])
    ∧ resolveKey "OperationParameter" "in_" = "in"
    ∧ resolveKey "Reference" "ref" = "$ref"
    ∧ resolveKey "PathItem" "ref" = "$ref" := by
  refine ⟨rfl, rfl, ?_, rfl, rfl, rfl⟩
  intro g v n p h
  rcases encode_named_inv h with ⟨d', hl, he⟩
  have hOP : lookupA specEnv "OperationParameter" =
      some (.prodOf "OperationParameter"
        [fF "name" "name" none (.scalar .kstr),
         fF "in_" "in" none (.named "ParamLocation"),
         fF "schema" "schema" none (.named "SchemaType"),
         fF "required" "required" (some (.vbool false)) (.scalar .kbool),
         fF "description" "description" (some (.vstr "")) (.scalar .kstr),
         fF "style" "style" (some (.vopt none)) (.opt (.named "ParamStyle")),
         fF "explode" "explode" (some (.vopt none)) (.opt (.scalar .kbool))]) := rfl
  rw [hOP] at hl
  have hd' := Option.some.inj hl
  subst hd'
  rcases encode_prod_inv he with ⟨fvs, es, hv, hef, hn⟩
  refine ⟨es, hn, ?_⟩
  intro k m hkm
  have hsub := encFields_keys hef
  have hk : k ∈ es.map Prod.fst := List.mem_map.2 ⟨(k, m), hkm, rfl⟩
  have hmem := hsub.subset hk
  simpa [fF, fext] using hmem

/-- C3 witness: the general no-`"in_"` part applied to the concrete
encoded parameter record. -/
theorem C3_overrides_witness :
    ∃ es, (Node.map [("name", Node.str "id"), ("in", Node.str "query"),
        ("schema", Node.map [("type", Node.str "string")])]) = .map es ∧
      ∀ k m, (k, m) ∈ es →
        k ∈ ["name", "in", "schema", "required", "description", "style", "explode"] :=
  C3_overrides.2.2.1 254 paramValC3
    (.map [("name", .str "id"), ("in", .str "query"),
           ("schema", .map [("type", .str "string")])]) "" C3_overrides.2.1

/-- C4: end-to-end.  The spec's example document decodes to the expected
root value (spec format `"3.0.2"`, `Info` with absent license and contact,
empty paths, remaining fields at their defaults), and encoding that value
reproduces the document exactly (defaults omitted). -/
theorem C4_end_to_end :
    parse_spec docC4 = .ok valC4 ∧ serialize_spec valC4 = .ok docC4 :=
  ⟨rfl, rfl⟩

/-- C5: free-form shape.  `{"type": "object"}` decodes (against the
schema union) to `ObjectWithAdditionalProperties` with
`additional_properties` absent; with `"additionalProperties": true` to the
boolean `true` branch; with a nested `{"type": "string"}` schema to the
decoded nested schema branch. -/
theorem C5_free_form :
    decode recursionLimit specEnv (.named "SchemaType")
        (.map [("type", .str "object")]) ""
      = .ok (objValC5 none)
    ∧ decode recursionLimit specEnv (.named "SchemaType")
        (.map [("type", .str "object"), ("additionalProperties", .bool true)]) ""
      = .ok (objValC5 (some (.vvariant 0 (.vbool true))))
    ∧ decode recursionLimit specEnv (.named "SchemaType")
        (.map [("type", .str "object"),
               ("additionalProperties", .map [("type", .str "string")])]) ""
      = .ok (objValC5 (some (.vvariant 1 (.vvariant 0 stringSchemaVal)))) :=
  ⟨rfl, rfl, rfl⟩

/-- C6: missing required field.  For every product type and mapping node,
a field with no default whose type is not Optional and whose external key
is absent makes decoding fail with `MissingFieldError` naming the path and
that field's external key (provided the fields declared before it pass the
shape pre-check, so the error is attributed to this field). -/
theorem C6_missing_required (gl : Nat) (env : Env) (ty : String)
    (pre post : List FieldT) (f : FieldT) (es : List (String × Node)) (p : String)
    (habsent : lookupA es (fext f) = none)
    (hnodef : fdef f = none)
    (hnotopt : isOptD (fdesc f) = false)
    (hpre : ∀ g ∈ pre, fieldShapeErr g es p = none) :
    decode (gl + 1) env (.prodOf ty (pre ++ f :: post)) (.map es) p =
      .error (.missingField p (fext f)) := by
  have hreq : isRequiredF f = true := by
    simp [isRequiredF, hnodef, hnotopt]
  have hf : fieldShapeErr f es p = some (.missingField p (fext f)) := by
    unfold fieldShapeErr
    simp only [habsent]
    rw [if_pos hreq]
  exact decode_prod_fail (checkShape_first hpre hf)

/-- C6 witness: decoding `{}` against `InfoLicense` (which requires
`name`) fails at path `""` with field `name`. -/
theorem C6_missing_required_witness :
    decode 256 specEnv
      (.prodOf "InfoLicense"
        [fF "name" "name" none (.scalar .kstr),
         fF "url" "url" (some (.vstr "")) (.scalar .kstr)])
      (.map []) "" = .error (.missingField "" "name") :=
  C6_missing_required 255 specEnv "InfoLicense" []
    [fF "url" "url" (some (.vstr "")) (.scalar .kstr)]
    (fF "name" "name" none (.scalar .kstr)) [] "" rfl rfl rfl (by simp)

/-- C7: scalar asymmetry.  An integer node decoded against the float kind
is accepted and widened; a float node against the integer kind is
rejected; and in general any node not matching the expected primitive
kind fails with `TypeMismatchError` carrying the path, the expected kind
name and the actual kind name. -/
theorem C7_scalar_asymmetry :
    (∀ (g : Nat) (env : Env) (m : Int) (p : String),
       decode (g + 1) env (.scalar .kfloat) (.int m) p = .ok (.vfloat (m : Rat)))
    ∧ (∀ (g : Nat) (env : Env) (q : Rat) (p : String),
       decode (g + 1) env (.scalar .kint) (.float q) p =
         .error (.typeMismatch p "integer" "number"))
    ∧ (∀ (g : Nat) (env : Env) (k : Kind) (node : Node) (p : String),
       scalarMatches k node = false →
       decode (g + 1) env (.scalar k) node p =
         .error (.typeMismatch p (scalarKindName k) (nodeKindName node))) :=
  ⟨fun _ _ _ _ => rfl, fun _ _ _ _ => rfl,
   fun _ _ _ _ _ h => decode_scalar_fail h⟩

/-- C7 witness: the general mismatch part applied to a float node against
the integer kind. -/
theorem C7_scalar_asymmetry_witness :
    scalarMatches .kint (.float (3 : Rat)) = false ∧
    decode 1 specEnv (.scalar .kint) (.float (3 : Rat)) "" =
      .error (.typeMismatch "" (scalarKindName .kint) (nodeKindName (.float (3 : Rat)))) :=
  ⟨rfl, C7_scalar_asymmetry.2.2 0 specEnv .kint (.float (3 : Rat)) "" rfl⟩

set_option maxRecDepth 8000 in
/-- C8: recursion guard.  The document with an array-of-array schema
nested 50 levels decodes and re-encodes without error; nested 1,000,000
levels it fails with the depth-guard error rather than crashing; and at
exhausted fuel both decode and encode return `RecursionLimitExceeded`
carrying the current path and the limit. -/
theorem C8_recursion_guard :
    (parse_spec (docDeep 50) = .ok (valDeep 50)
     ∧ serialize_spec (valDeep 50) = .ok (docDeep 50))
    ∧ rleV (parse_spec (docDeep 1000000)) = true
    ∧ (∀ (env : Env) (d : Desc) (n : Node) (p : String),
        decode 0 env d n p = .error (.recursionLimitExceeded p recursionLimit))
    ∧ (∀ (env : Env) (d : Desc) (v : Value) (p : String),
        encode 0 env d v p = .error (.recursionLimitExceeded p recursionLimit)) :=
  ⟨⟨rfl, rfl⟩, rfl, fun _ _ _ _ => rfl, fun _ _ _ _ => rfl⟩

/-- C9: re-decode stability.  Every document `parse_spec` accepts yields a
typed value whose encoding succeeds and whose re-decoding yields the same
typed value: `parse_spec (serialize_spec (parse_spec d)) == parse_spec d`. -/
theorem C9_redecode_stability (d : Node) (v : Value) (h : parse_spec d = .ok v) :
    ∃ n', serialize_spec v = .ok n' ∧ parse_spec n' = .ok v := by
  rcases dec_then_enc specEnv_ok recursionLimit (q := "") rootDesc_ok h with ⟨n', hn'⟩
  have hconf := decode_conforms specEnv_ok recursionLimit rootDesc_ok h
  exact ⟨n', hn', rt_fuel specEnv_ok recursionLimit rootDesc_ok hconf hn' ""⟩

/-- C9 witness: the example document, accepted by `parse_spec`, re-decodes
to the same value after encoding. -/
theorem C9_redecode_stability_witness :
    parse_spec docC4 = .ok valC4 ∧
    ∃ n', serialize_spec valC4 = .ok n' ∧ parse_spec n' = .ok valC4 :=
  ⟨rfl, C9_redecode_stability docC4 valC4 rfl⟩

/-- C10: implicit version restriction.  Every document whose `"openapi"`
key holds anything other than `"3.0.0"`, `"3.0.1"`, `"3.0.2"` or
`"3.0.3"` is rejected by `parse_spec` with a decode error. -/
theorem C10_version_restriction (es : List (String × Node)) (nd : Node)
    (hl : lookupA es "openapi" = some nd)
    (hfmt : specFormatOK nd = false) :
    ∃ e, parse_spec (.map es) = .error e := by
  have hP : parse_spec (.map es) =
      (match checkShape
          [fF "openapi" "openapi" none (.named "SpecFormat"),
           fF "info" "info" none (.named "Info"),
           fF "paths" "paths" none (.dict (.named "PathItem")),
           fF "components" "components" (some componentsDefault) (.named "Components"),
           fF "servers" "servers" (some (.vseq [])) (.seqOf (.named "Server")),
           fF "security" "security" (some (.vseq []))
             (.seqOf (.dict (.seqOf (.scalar .kstr)))),
           fF "tags" "tags" (some (.vseq [])) (.seqOf (.named "SpecTag")),
           fF "external_docs" "externalDocs" (some (.vopt none))
             (.opt (.named "ExternalDoc"))] es "" with
       | some e => Except.error e
       | none =>
         (decFields (fun d n p => decode 254 specEnv d n p)
           [fF "openapi" "openapi" none (.named "SpecFormat"),
            fF "info" "info" none (.named "Info"),
            fF "paths" "paths" none (.dict (.named "PathItem")),
            fF "components" "components" (some componentsDefault) (.named "Components"),
            fF "servers" "servers" (some (.vseq [])) (.seqOf (.named "Server")),
            fF "security" "security" (some (.vseq []))
              (.seqOf (.dict (.seqOf (.scalar .kstr)))),
            fF "tags" "tags" (some (.vseq [])) (.seqOf (.named "SpecTag")),
            fF "external_docs" "externalDocs" (some (.vopt none))
              (.opt (.named "ExternalDoc"))] es "").map (Value.vprod "OpenAPI")) := rfl
  rcases hcs : checkShape
      [fF "openapi" "openapi" none (.named "SpecFormat"),
       fF "info" "info" none (.named "Info"),
       fF "paths" "paths" none (.dict (.named "PathItem")),
       fF "components" "components" (some componentsDefault) (.named "Components"),
       fF "servers" "servers" (some (.vseq [])) (.seqOf (.named "Server")),
       fF "security" "security" (some (.vseq []))
         (.seqOf (.dict (.seqOf (.scalar .kstr)))),
       fF "tags" "tags" (some (.vseq [])) (.seqOf (.named "SpecTag")),
       fF "external_docs" "externalDocs" (some (.vopt none))
         (.opt (.named "ExternalDoc"))] es "" with _ | e0
  · rcases decode_specformat_fail (g := 252) (p := pathExt "" "openapi") hfmt with ⟨e1, he1⟩
    have hnamed : decode 254 specEnv (.named "SpecFormat") nd (pathExt "" "openapi")
        = .error e1 := by
      rw [show decode 254 specEnv (.named "SpecFormat") nd (pathExt "" "openapi")
          = decode 253 specEnv (.enumOf ["3.0.0", "3.0.1", "3.0.2", "3.0.3"]) nd
              (pathExt "" "openapi") from rfl]
      exact he1
    have hdf : decFields (fun d n p => decode 254 specEnv d n p)
        [fF "openapi" "openapi" none (.named "SpecFormat"),
         fF "info" "info" none (.named "Info"),
         fF "paths" "paths" none (.dict (.named "PathItem")),
         fF "components" "components" (some componentsDefault) (.named "Components"),
         fF "servers" "servers" (some (.vseq [])) (.seqOf (.named "Server")),
         fF "security" "security" (some (.vseq []))
           (.seqOf (.dict (.seqOf (.scalar .kstr)))),
         fF "tags" "tags" (some (.vseq [])) (.seqOf (.named "SpecTag")),
         fF "external_docs" "externalDocs" (some (.vopt none))
           (.opt (.named "ExternalDoc"))] es "" = .error e1 :=
      decFields_first_err hl hnamed
    refine ⟨e1, ?_⟩
    rw [hP, hcs, hdf]
    rfl
  · refine ⟨e0, ?_⟩
    rw [hP, hcs]

/-- C10 witness: a document declaring `"openapi": "2.0"` is rejected. -/
theorem C10_version_restriction_witness :
    specFormatOK (.str "2.0") = false ∧
    ∃ e, parse_spec (.map [("openapi", .str "2.0")]) = .error e :=
  ⟨rfl, C10_version_restriction [("openapi", .str "2.0")] (.str "2.0") rfl rfl⟩

end OpenapiType
